import Mathlib

/-!
Verification development for the hddl repository (src/hddl.cpp), a U++
console program that parses JSON device-library files with a line-tracking
parser (namespace json, lines 8-95), collects device description entries
(struct HOMEd, lines 118-296), and renders a Markdown catalogue.

The embedding models the input text as a list of characters.  The U++
CParser is modelled faithfully from its documented behaviour: a current
position (the remaining suffix of the input) plus a 1-based line counter;
every consumed token skips trailing whitespace and C style comments,
counting newline characters into the line counter.  Recursion in the
parser is driven by an explicit fuel argument; every recursive step of
the source consumes at least one input character, so a fuel of twice the
input length plus two can never run out on the inputs the theorems touch.
-/

namespace Hddl

/-- Number of newline characters in a list, used to relate the line
counter of the parser to positions of the original text. -/
def cnt (l : List Char) : Nat := l.count '\n'

/-- Whether the given character begins the list. -/
def headIs (c : Char) : List Char → Bool
  | d :: _ => d = c
  | [] => false

/-- Whether the two given characters begin the list (CParser IsChar2). -/
def headIs2 (c₁ c₂ : Char) : List Char → Bool
  | a :: b :: _ => a = c₁ && b = c₂
  | _ => false

/-- True when the list contains a backslash immediately followed by a raw
newline.  Valid JSON text never contains this two character sequence; it
is the single case in which the modelled CParser consumes a newline
without counting it (the default branch of the string escape handling). -/
def hasBslashNl : List Char → Bool
  | [] => false
  | c :: t => (c = '\\' && headIs '\n' t) || hasBslashNl t

/-- Skip the body of a line comment, keeping the terminating newline so
that the whitespace skipper counts it (CParser Spaces0). -/
def skipLineComment : List Char → List Char
  | [] => []
  | c :: t => if c = '\n' then c :: t else skipLineComment t

/-- Skip a block comment up to and including the closing star slash,
counting newlines into the line counter (CParser Spaces0). -/
def skipBlock : List Char → Nat → List Char × Nat
  | [], line => ([], line)
  | c :: t, line =>
    if c = '*' && headIs '/' t then (t.drop 1, line)
    else if c = '\n' then skipBlock t (line + 1)
    else skipBlock t line

/-- Fueled whitespace and comment skipper (CParser Spaces0): consumes
characters of code at most 32 and both comment forms, incrementing the
line counter at each newline.  When the fuel runs out it returns its
input unchanged; callers always pass fuel larger than the input length. -/
def skipSpacesF : Nat → List Char → Nat → List Char × Nat
  | 0, r, line => (r, line)
  | fuel + 1, r, line =>
    match r with
    | [] => ([], line)
    | c :: t =>
      if c = '\n' then skipSpacesF fuel t (line + 1)
      else if c.toNat ≤ 32 then skipSpacesF fuel t line
      else if c = '/' && headIs '/' t then
        skipSpacesF fuel (skipLineComment (t.drop 1)) line
      else if c = '/' && headIs '*' t then
        skipSpacesF fuel (skipBlock (t.drop 1) line).1 (skipBlock (t.drop 1) line).2
      else (c :: t, line)

/-- Whitespace skipping with sufficient fuel. -/
def skipSpaces (r : List Char) (line : Nat) : List Char × Nat :=
  skipSpacesF (r.length + 1) r line

/-- CParser Char: match one literal character and skip trailing space. -/
def pchar (c : Char) (r : List Char) (line : Nat) : Option (List Char × Nat) :=
  match r with
  | d :: t => if d = c then some (skipSpaces t line) else none
  | [] => none

/-- Parse error carried by the error value: a message and the 1-based
line number held by the parser when the error was raised. -/
structure PErr where
  msg : String
  line : Nat
deriving DecidableEq, Repr

/-- CParser PassChar: like pchar but a failure is a thrown error. -/
def passChar (c : Char) (r : List Char) (line : Nat) : Except PErr (List Char × Nat) :=
  match pchar c r line with
  | some p => .ok p
  | none => .error ⟨"missing " ++ String.mk [c], line⟩

/-- Match a literal keyword character by character, returning the rest. -/
def matchKw : List Char → List Char → Option (List Char)
  | [], r => some r
  | k :: kt, c :: rt => if c = k then matchKw kt rt else none
  | _ :: _, [] => none

/-- Characters that may continue an identifier (CParser IsId). -/
def isIdChar (c : Char) : Bool := c.isAlphanum || c = '_'

/-- CParser Id: match a whole identifier keyword followed by a non
identifier character, then skip trailing space. -/
def pid (kw : List Char) (r : List Char) (line : Nat) : Option (List Char × Nat) :=
  match matchKw kw r with
  | none => none
  | some rest =>
    match rest with
    | c :: _ => if isIdChar c then none else some (skipSpaces rest line)
    | [] => some (skipSpaces rest line)

/-- Take a run of decimal digits from the head of the list. -/
def takeDigits : List Char → List Char × List Char
  | [] => ([], [])
  | c :: t =>
    if c.isDigit then
      let p := takeDigits t
      (c :: p.1, p.2)
    else ([], c :: t)

/-- Whether a sign character begins the list. -/
def headSign : List Char → Bool
  | c :: _ => c = '-' || c = '+'
  | [] => false

/-- Drop one leading sign character if present. -/
def dropSign (r : List Char) : List Char := if headSign r then r.drop 1 else r

/-- Sign characters taken from the head, as a list. -/
def takeSign (r : List Char) : List Char := if headSign r then r.take 1 else []

/-- Whether a digit begins the list. -/
def headDigit : List Char → Bool
  | c :: _ => c.isDigit
  | [] => false

/-- CParser IsDouble: an optional sign followed by a digit, or by a dot
and a digit. -/
def isNumStart (r : List Char) : Bool :=
  let r1 := dropSign r
  headDigit r1 || (headIs '.' r1 && headDigit (r1.drop 1))

/-- CParser IsInt: an optional sign followed by a digit. -/
def isIntStart (r : List Char) : Bool := headDigit (dropSign r)

/-- Numeric value of a digit run. -/
def digitsToNat (l : List Char) : Nat := l.foldl (fun a c => a * 10 + (c.toNat - 48)) 0

/-- CParser ReadDouble, token part: consume sign, integer digits, an
optional fraction and an optional exponent; the consumed literal is kept
verbatim (the floating point value itself is never inspected by the
program).  Returns none when no well formed number is present. -/
def readNumTok (r : List Char) : Option (List Char × List Char) :=
  let sg := takeSign r
  let r1 := dropSign r
  let p1 := takeDigits r1
  let d1 := p1.1
  let fr : List Char × List Char :=
    if headIs '.' p1.2 then
      ('.' :: (takeDigits (p1.2.drop 1)).1, (takeDigits (p1.2.drop 1)).2)
    else ([], p1.2)
  if d1 = [] && fr.1.length ≤ 1 then none
  else
    match fr.2 with
    | c :: t =>
      if c = 'e' || c = 'E' then
        let esg := takeSign t
        let t1 := dropSign t
        let pe := takeDigits t1
        if pe.1 = [] then none
        else some (sg ++ d1 ++ fr.1 ++ [c] ++ esg ++ pe.1, pe.2)
      else some (sg ++ d1 ++ fr.1, c :: t)
    | [] => some (sg ++ d1 ++ fr.1, [])

/-- Hexadecimal value of one character. -/
def hexVal (c : Char) : Option Nat :=
  if '0' ≤ c ∧ c ≤ '9' then some (c.toNat - 48)
  else if 'a' ≤ c ∧ c ≤ 'f' then some (c.toNat - 87)
  else if 'A' ≤ c ∧ c ≤ 'F' then some (c.toNat - 55)
  else none

/-- Decoded character of a simple escape; unknown escapes decode to the
escaped character itself (CParser ReadOneString default branch). -/
def escChar (c : Char) : Char :=
  if c = 'n' then '\n'
  else if c = 'r' then '\r'
  else if c = 't' then '\t'
  else if c = 'b' then '\x08'
  else if c = 'f' then '\x0C'
  else c

/-- Body of CParser ReadOneString after the opening quote, in unicode
escape mode: collect characters up to the closing quote, decoding
backslash escapes including a four digit unicode escape; a raw newline
or the end of input before the closing quote is an error (none). -/
def readStrBody : List Char → List Char → Option (String × List Char)
  | [], _ => none
  | c :: t, acc =>
    if c = '"' then some (String.mk acc.reverse, t)
    else if c = '\\' then
      match t with
      | [] => none
      | e :: u =>
        if e = 'u' then
          match u with
          | a :: b :: c2 :: d :: u2 =>
            match hexVal a, hexVal b, hexVal c2, hexVal d with
            | some ha, some hb, some hc, some hd =>
              readStrBody u2 (Char.ofNat (((ha * 16 + hb) * 16 + hc) * 16 + hd) :: acc)
            | _, _, _, _ => none
          | _ => none
        else readStrBody u (escChar e :: acc)
    else if c = '\n' then none
    else readStrBody t (c :: acc)

/-- CParser ReadString, token part: an opening quote then the body. -/
def readStringTok (r : List Char) : Option (String × List Char) :=
  if headIs '"' r then readStrBody (r.drop 1) [] else none

/-- Whether a double quote begins the list (CParser IsString). -/
def isQuote (r : List Char) : Bool := headIs '"' r

/-- CParser ReadString as the parser uses it: a failure is a thrown
error carrying the current line. -/
def readStringE (r : List Char) (line : Nat) : Except PErr (String × List Char) :=
  match readStringTok r with
  | some p => .ok p
  | none =>
    .error ⟨if isQuote r then "missing closing quote of string"
            else "missing opening quote of string", line⟩

/-- CParser ReadInt64: sign, digits, overflow check against the int64
range, then trailing space skipping. -/
def readInt64E (r : List Char) (line : Nat) : Except PErr (Int × List Char × Nat) :=
  let sgn : Int := if headIs '-' r then -1 else 1
  let r1 := dropSign r
  let p := takeDigits r1
  if p.1 = [] then .error ⟨"missing number", line⟩
  else if (2 : Nat) ^ 63 ≤ digitsToNat p.1 then
    .error ⟨"integer constant is too big", line⟩
  else
    let q := skipSpaces p.2 line
    .ok (sgn * Int.ofNat (digitsToNat p.1), q.1, q.2)

/-- json::Key (hddl.cpp lines 10-33): an object key that remembers the
1-based source line of its occurrence.  The collector builds throwaway
lookup keys with line -1; equality compares the text only. -/
structure Key where
  key : String
  line : Int
deriving DecidableEq, Repr

/-- Key operator== (line 22): equality on the text only; the line of a
synthetically built lookup key is irrelevant to lookups. -/
def keyEq (a b : Key) : Bool := a.key == b.key

/-- The U++ Value as the program uses it: null, boolean, the verbatim
literal of a number (the program never inspects the numeric value),
string, time (seconds since 1970-01-01 00:00:00, produced only by the
legacy date conversion), object (a ValueMap of line tracking keys in
insertion order), array, and the error value produced by the top level
parse entry point. -/
inductive Value where
  | null
  | bool (b : Bool)
  | num (lit : String)
  | str (s : String)
  | time (secs : Int)
  | obj (m : List (Key × Value))
  | arr (a : List Value)
  | err (msg : String) (line : Nat)

/-- ValueMap Find through Key equality (used at hddl.cpp line 186):
returns the first stored pair whose key text matches. -/
def vmFind (m : List (Key × Value)) (k : Key) : Option (Key × Value) :=
  m.find? (fun kv => keyEq kv.1 k)

/-- The inner legacy date recogniser (hddl.cpp lines 43-48): a fresh
CParser over the decoded string content checks for slash, the
identifier Date, an opening parenthesis and an integer; the closing
characters are never checked.  An overflowing integer constant throws
out of the whole parse (the inner parser is inside the outer try).
Returns ok none when the pattern does not match (string kept verbatim). -/
def dateCheck (s : String) : Except PErr (Option Int) :=
  let p0 := skipSpaces s.toList 1
  match pchar '/' p0.1 p0.2 with
  | none => .ok none
  | some p1 =>
    match pid "Date".toList p1.1 p1.2 with
    | none => .ok none
    | some p2 =>
      match pchar '(' p2.1 p2.2 with
      | none => .ok none
      | some p3 =>
        if isIntStart p3.1 then
          match readInt64E p3.1 p3.2 with
          | .error e => .error e
          | .ok (n, _, _) => if n = -(2 ^ 63) then .ok none else .ok (some n)
        else .ok none

/-- One frame of the recursive descent of json::Parse (hddl.cpp lines
35-83): the value parser, the object member loop head, the object
separator handling after a member value (lines 65-67), and the two
array counterparts (lines 71-78). -/
inductive PCall where
  | val (r : List Char) (line : Nat)
  | objBody (m : List (Key × Value)) (r : List Char) (line : Nat)
  | objTail (m : List (Key × Value)) (r : List Char) (line : Nat)
  | arrBody (a : List Value) (r : List Char) (line : Nat)
  | arrTail (a : List Value) (r : List Char) (line : Nat)

/-- Line counter of a frame. -/
def PCall.line : PCall → Nat
  | .val _ l => l
  | .objBody _ _ l => l
  | .objTail _ _ l => l
  | .arrBody _ _ l => l
  | .arrTail _ _ l => l

/-- json::Parse (hddl.cpp lines 35-83) as a fueled step function over
frames.  The branch order follows the source exactly: number, string
(with the legacy date conversion only when the raw literal starts with
a quote followed by a backslash, line 40), null, true, false, object,
array, otherwise the Unrecognized JSON element error.  Object members
record the line counter current at the start of the key token (line
61).  A stray comma before a closing brace or bracket is allowed
(lines 65-67 and 75-77). -/
def parseF : Nat → PCall → Except PErr (Value × List Char × Nat)
  | 0, c => .error ⟨"nesting too deep", c.line⟩
  | fuel + 1, .val r line =>
    if isNumStart r then
      match readNumTok r with
      | none => .error ⟨"invalid numeric format", line⟩
      | some (lit, r1) =>
        let p := skipSpaces r1 line
        .ok (.num (String.mk lit), p.1, p.2)
    else if isQuote r then
      let dt : Bool := headIs2 '"' '\\' r
      match readStringE r line with
      | .error e => .error e
      | .ok (s, r1) =>
        let p := skipSpaces r1 line
        if dt then
          match dateCheck s with
          | .error e => .error e
          | .ok (some n) => .ok (.time (Int.tdiv n 1000), p.1, p.2)
          | .ok none => .ok (.str s, p.1, p.2)
        else .ok (.str s, p.1, p.2)
    else
      match pid "null".toList r line with
      | some p => .ok (.null, p.1, p.2)
      | none =>
        match pid "true".toList r line with
        | some p => .ok (.bool true, p.1, p.2)
        | none =>
          match pid "false".toList r line with
          | some p => .ok (.bool false, p.1, p.2)
          | none =>
            match pchar '\x7b' r line with
            | some p => parseF fuel (.objBody [] p.1 p.2)
            | none =>
              match pchar '[' r line with
              | some p => parseF fuel (.arrBody [] p.1 p.2)
              | none => .error ⟨"Unrecognized JSON element", line⟩
  | fuel + 1, .objBody m r line =>
    match pchar '\x7d' r line with
    | some p => .ok (.obj m, p.1, p.2)
    | none =>
      match readStringE r line with
      | .error e => .error e
      | .ok (k, r1) =>
        let p1 := skipSpaces r1 line
        match passChar ':' p1.1 p1.2 with
        | .error e => .error e
        | .ok p2 =>
          match parseF fuel (.val p2.1 p2.2) with
          | .error e => .error e
          | .ok (v, r4, l4) =>
            parseF fuel (.objTail (m ++ [(⟨k, Int.ofNat line⟩, v)]) r4 l4)
  | fuel + 1, .objTail m r line =>
    match pchar '\x7d' r line with
    | some p => .ok (.obj m, p.1, p.2)
    | none =>
      match passChar ',' r line with
      | .error e => .error e
      | .ok p => parseF fuel (.objBody m p.1 p.2)
  | fuel + 1, .arrBody a r line =>
    match pchar ']' r line with
    | some p => .ok (.arr a, p.1, p.2)
    | none =>
      match parseF fuel (.val r line) with
      | .error e => .error e
      | .ok (v, r1, l1) => parseF fuel (.arrTail (a ++ [v]) r1 l1)
  | fuel + 1, .arrTail a r line =>
    match pchar ']' r line with
    | some p => .ok (.arr a, p.1, p.2)
    | none =>
      match passChar ',' r line with
      | .error e => .error e
      | .ok p => parseF fuel (.arrBody a p.1 p.2)

/-- The recursive json::Parse(CParser) applied to a whole text: the
CParser constructor skips leading whitespace with the line counter
starting at 1, then one value is parsed (trailing input is ignored). -/
def jsonParseE (s : String) : Except PErr (Value × List Char × Nat) :=
  let p0 := skipSpaces s.toList 1
  parseF (2 * s.toList.length + 2) (.val p0.1 p0.2)

/-- json::Parse(const char*) (hddl.cpp lines 85-93): the top level entry
point catches every parser error and turns it into an error value. -/
def jsonParse (s : String) : Value :=
  match jsonParseE s with
  | .ok (v, _, _) => v
  | .error e => .err e.msg e.line

/-- Value::IsError. -/
def valueIsError : Value → Bool
  | .err _ _ => true
  | _ => false

/-- Value::GetCount: the entry count of a container, 0 for anything
else (scalars included). -/
def valueGetCount : Value → Nat
  | .obj m => m.length
  | .arr a => a.length
  | _ => 0

/-- Value::Is ValueMap. -/
def valueIsMap : Value → Bool
  | .obj _ => true
  | _ => false

/-- Scalar values in the sense of claim C10: number, string, boolean or
null. -/
def valueIsScalar : Value → Bool
  | .null => true
  | .bool _ => true
  | .num _ => true
  | .str _ => true
  | _ => false

/-- Conversion of a Value to a ValueArray as the collector performs at
hddl.cpp line 182; a non array value contributes no elements. -/
def asValueArray : Value → List Value
  | .arr a => a
  | _ => []

/-- Conversion of a Value to a String (hddl.cpp line 190). -/
def asString : Value → String
  | .str s => s
  | _ => ""

mutual
/-- All keys of every object anywhere inside a value, with their
recorded lines, in traversal order. -/
def keyLines : Value → List (String × Int)
  | .obj m => keyLinesPairs m
  | .arr a => keyLinesArr a
  | _ => []

/-- keyLines over the members of one object. -/
def keyLinesPairs : List (Key × Value) → List (String × Int)
  | [] => []
  | (k, v) :: t => (k.key, k.line) :: (keyLines v ++ keyLinesPairs t)

/-- keyLines over the elements of one array. -/
def keyLinesArr : List Value → List (String × Int)
  | [] => []
  | v :: t => keyLines v ++ keyLinesArr t
end

/-- State of struct HOMEd (hddl.cpp lines 129-131) together with the
diagnostics written to the error stream: the alias table fnMap, the
catalogue bMap, and the emitted error lines. -/
structure HState where
  fnMap : List (String × String)
  bMap : List (String × List Key)
  errs : List String
deriving DecidableEq, Repr

/-- The seeded alias table (HOMEd constructor, hddl.cpp lines 134-156). -/
def seedFnMap : List (String × String) :=
  [("lumi.json", "Aqara/Xiaomi"), ("hue.json", "Philips"),
   ("gledopto.json", "GLEDOPTO"), ("gs.json", "GS"), ("konke.json", "Konke"),
   ("lifecontrol.json", "Life Control"), ("orvibo.json", "ORVIBO"),
   ("perenio.json", "Perenio"), ("yandex.json", "Yandex"),
   ("sonoff.json", "Sonoff"), ("ikea.json", "IKEA"), ("tuya.json", "TUYA"),
   ("efekta.json", "Efekta"), ("modkam.json", "Modkam"),
   ("pushok.json", "PushOk"), ("bacchus.json", "Bacchus"),
   ("homed.json", "HOMEd"), ("slacky.json", "Slacky"),
   ("other.json", "...")]

/-- A freshly constructed HOMEd. -/
def initState : HState := ⟨seedFnMap, [], []⟩

/-- Characters after the last slash of a path (GetFileName). -/
def afterLastSlash (l : List Char) : List Char :=
  l.foldl (fun acc c => if c = '/' then [] else acc ++ [c]) []

/-- U++ GetFileName: base name of a path. -/
def getFileName (p : String) : String := String.mk (afterLastSlash p.toList)

/-- U++ GetFileTitle: base name of a path without its extension. -/
def getFileTitle (fn : String) : String :=
  let cs := afterLastSlash fn.toList
  match cs.reverse.dropWhile (fun c => !(c == '.')) with
  | [] => String.mk cs
  | _ :: t => String.mk t.reverse

/-- Description entries extracted from one top level object member value
(hddl.cpp lines 182-194): for every array element that is an object,
look up the key with text description through a throwaway Key with line
-1; when found, record the associated string value together with the
line number carried by that stored key occurrence. -/
def extractDescriptions (v : Value) : List Key :=
  (asValueArray v).foldl
    (fun acc w =>
      match w with
      | .obj o =>
        match vmFind o ⟨"description", -1⟩ with
        | some kv => acc ++ [⟨asString kv.2, kv.1.line⟩]
        | none => acc
      | _ => acc)
    []

/-- Append freshly collected keys to the cataloque entry of a file. -/
def addToEntry (b : List (String × List Key)) (fn : String) (ks : List Key) :
    List (String × List Key) :=
  b.map (fun p => if p.1 = fn then (p.1, p.2 ++ ks) else p)

/-- HOMEd::CollectContent (hddl.cpp lines 158-197).  Parse the content;
an error value is reported as a parse failure; a value with zero
elements is reported as the empty JSON; a non object is a silent
failure; otherwise the cataloque entry for the file is created (even if
it stays empty), an unknown file name is registered in the alias table
under its file title, and all description entries are appended. -/
def collectContent (fn fin content : String) (st : HState) : Bool × HState :=
  let js := jsonParse content
  if valueIsError js then
    (false, { st with errs := st.errs ++ ["Failed to parse JSON file " ++ fin] })
  else if valueGetCount js = 0 then
    (false, { st with errs := st.errs ++ ["The JSON is empty. " ++ fin] })
  else
    match js with
    | .obj vm =>
      let b1 := if (st.bMap.lookup fn).isSome then st.bMap else st.bMap ++ [(fn, [])]
      let f1 := if (st.fnMap.lookup fn).isSome then st.fnMap
                else st.fnMap ++ [(fn, getFileTitle fn)]
      let ks := vm.foldl (fun acc kv => acc ++ extractDescriptions kv.2) []
      (true, { st with fnMap := f1, bMap := addToEntry b1 fn ks })
    | _ => (false, st)

/-- HOMEd::CollectDir (hddl.cpp lines 199-215) over the enumerated
files, each given as its path together with its content, or none when
opening the file fails.  A file that fails to open is reported and the
whole collection returns false at once; a file whose content is not
collected likewise stops the collection with false. -/
def collectDir (files : List (String × Option String)) (st : HState) : Bool × HState :=
  match files with
  | [] => (true, st)
  | (fin, none) :: _ =>
    (false, { st with errs := st.errs ++ ["Couldn't open file " ++ fin] })
  | (fin, some content) :: rest =>
    let r := collectContent (getFileName fin) fin content st
    if r.1 then collectDir rest r.2 else (false, r.2)

/-- Byte and codepoint lexicographic order on character lists. -/
def listLe : List Char → List Char → Bool
  | [], _ => true
  | _ :: _, [] => false
  | a :: x, b :: y =>
    if a.toNat < b.toNat then true
    else if b.toNat < a.toNat then false
    else listLe x y

/-- Locale independent codepoint order on strings (U++ String compare). -/
def strLe (a b : String) : Bool := listLe a.toList b.toList

/-- U++ SortByValue on the alias table, modelled as a stable insertion
sort by display name in ascending codepoint order. -/
def sortByValue (l : List (String × String)) : List (String × String) :=
  List.insertionSort (fun a b => strLe a.2 b.2 = true) l

/-- Line terminator written by the program. -/
def eol : String := "\n"

/-- The fallback file name whose section is always rendered last. -/
def otherJson : String := "other.json"

/-- HOMEd::Populate(Stream, String, String) (hddl.cpp lines 260-271):
look the file up in the cataloque and render a heading plus one linked
list item per collected entry.  The source indexes bMap with the Find
result without checking it; for a file absent from the cataloque the
access bMap[-1] is out of bounds, modelled as none. -/
def renderSection (st : HState) (fn al : String) : Option String :=
  match st.bMap.lookup fn with
  | none => none
  | some kv =>
    some ("## " ++ al ++ eol ++ eol ++
      String.join (kv.map (fun k =>
        "* [" ++ k.key ++
        "](https://github.com/u236/homed-service-zigbee/blob/master/deploy/data/usr/share/homed-zigbee/" ++
        fn ++ "#L" ++ toString k.line ++ ")" ++ eol)) ++ eol)

/-- The order in which sections are rendered (hddl.cpp lines 285-294):
the alias table sorted by display name with the fallback file skipped,
followed by the fallback file with its literal alias. -/
def renderOrder (st : HState) : List (String × String) :=
  (sortByValue st.fnMap).filter (fun p => p.1 ≠ otherJson) ++ [(otherJson, "...")]

/-- Sequential rendering of sections; an out of bounds access in any
section makes the whole result none. -/
def renderSections (st : HState) : List (String × String) → Option String
  | [] => some ""
  | (fn, al) :: rest =>
    match renderSection st fn al with
    | none => none
    | some sec =>
      match renderSections st rest with
      | none => none
      | some r => some (sec ++ r)

/-- The fixed document header (hddl.cpp lines 274-283). -/
def headerText : String :=
  "# ZigBee: Поддерживаемые устройства" ++ eol ++ eol ++
  "## Общие сведения" ++ eol ++ eol ++
  "Список поддерживаемых устройств невелик, но он периодически пополняется. Для добавления поддержки новых устройств можно создать запрос на [GitHub](https://github.com/u236/homed-service-zigbee/issues) или заглянуть в [чат проекта](https://t.me/homed_chat) в Telegram." ++ eol ++ eol ++
  "Представленный ниже список поддерживаемых устройств формируется из файлов библиотеки устройств, в полу-автоматическом режиме, поэтому он может быть не совсем актуальным." ++ eol ++ eol

/-- HOMEd::Populate(Stream) (hddl.cpp lines 273-296): header, then all
sections in renderOrder. -/
def populate (st : HState) : Option String :=
  match renderSections st (renderOrder st) with
  | none => none
  | some body => some (headerText ++ body)

theorem cnt_nil : cnt [] = 0 := rfl

theorem cnt_cons (c : Char) (t : List Char) :
    cnt (c :: t) = cnt t + (if c = '\n' then 1 else 0) := by
  by_cases h : c = '\n'
  · subst h; simp [cnt, List.count_cons]
  · simp [cnt, List.count_cons, h]

theorem cnt_append (a b : List Char) : cnt (a ++ b) = cnt a + cnt b := by
  simp [cnt, List.count_append]

theorem cnt_suffix_le {a b : List Char} (h : a <:+ b) : cnt a ≤ cnt b := by
  obtain ⟨t, rfl⟩ := h
  rw [cnt_append]; omega

theorem headIs_eq {c : Char} {l : List Char} (h : headIs c l = true) :
    ∃ u, l = c :: u := by
  cases l with
  | nil => simp [headIs] at h
  | cons d u =>
    simp only [headIs, decide_eq_true_eq] at h
    exact ⟨u, by rw [h]⟩

theorem hasBslashNl_cons {c : Char} {t : List Char}
    (h : hasBslashNl (c :: t) = false) : hasBslashNl t = false := by
  simp only [hasBslashNl, Bool.or_eq_false_iff] at h
  exact h.2

theorem hasBslashNl_suffix {a b : List Char} (h : a <:+ b)
    (hb : hasBslashNl b = false) : hasBslashNl a = false := by
  obtain ⟨t, rfl⟩ := h
  induction t with
  | nil => exact hb
  | cons c t ih => exact ih (hasBslashNl_cons hb)

theorem skipLineComment_spec (l : List Char) :
    skipLineComment l <:+ l ∧ cnt (skipLineComment l) = cnt l := by
  induction l with
  | nil => exact ⟨List.suffix_rfl, rfl⟩
  | cons c t ih =>
    by_cases h : c = '\n'
    · simp [skipLineComment, h]
    · simp only [skipLineComment, if_neg h]
      refine ⟨ih.1.trans (List.suffix_cons c t), ?_⟩
      rw [ih.2, cnt_cons, if_neg h]
      omega

theorem skipBlock_spec (l : List Char) : ∀ line,
    (skipBlock l line).1 <:+ l ∧
      (skipBlock l line).2 + cnt (skipBlock l line).1 = line + cnt l := by
  induction l with
  | nil => intro line; exact ⟨List.suffix_rfl, rfl⟩
  | cons c t ih =>
    intro line
    simp only [skipBlock]
    by_cases h1 : (c = '*' && headIs '/' t) = true
    · rw [if_pos h1]
      simp only [Bool.and_eq_true, decide_eq_true_eq] at h1
      obtain ⟨u, hu⟩ := headIs_eq h1.2
      subst hu
      refine ⟨(List.drop_suffix 1 ('/' :: u)).trans (List.suffix_cons c _), ?_⟩
      rw [cnt_cons, cnt_cons]
      simp [h1.1]
    · rw [if_neg h1]
      by_cases h2 : c = '\n'
      · rw [if_pos h2]
        obtain ⟨hs, hm⟩ := ih (line + 1)
        refine ⟨hs.trans (List.suffix_cons c t), ?_⟩
        rw [hm, cnt_cons, if_pos h2]; omega
      · rw [if_neg h2]
        obtain ⟨hs, hm⟩ := ih line
        refine ⟨hs.trans (List.suffix_cons c t), ?_⟩
        rw [hm, cnt_cons, if_neg h2]
        omega

theorem skipSpacesF_spec : ∀ fuel (l : List Char) (line : Nat),
    (skipSpacesF fuel l line).1 <:+ l ∧
      (skipSpacesF fuel l line).2 + cnt (skipSpacesF fuel l line).1 = line + cnt l := by
  intro fuel
  induction fuel with
  | zero => intro l line; exact ⟨List.suffix_rfl, rfl⟩
  | succ fuel ih =>
    intro l line
    match l with
    | [] => exact ⟨List.suffix_rfl, rfl⟩
    | c :: t =>
      simp only [skipSpacesF]
      by_cases h1 : c = '\n'
      · rw [if_pos h1]
        obtain ⟨hs, hm⟩ := ih t (line + 1)
        refine ⟨hs.trans (List.suffix_cons c t), ?_⟩
        rw [hm, cnt_cons, if_pos h1]; omega
      · rw [if_neg h1]
        by_cases h2 : c.toNat ≤ 32
        · rw [if_pos h2]
          obtain ⟨hs, hm⟩ := ih t line
          refine ⟨hs.trans (List.suffix_cons c t), ?_⟩
          rw [hm, cnt_cons, if_neg h1]
          omega
        · rw [if_neg h2]
          by_cases h3 : (c = '/' && headIs '/' t) = true
          · rw [if_pos h3]
            simp only [Bool.and_eq_true, decide_eq_true_eq] at h3
            obtain ⟨u, hu⟩ := headIs_eq h3.2
            subst hu
            obtain ⟨hs, hm⟩ := ih (skipLineComment (('/' :: u).drop 1)) line
            obtain ⟨hls, hlc⟩ := skipLineComment_spec u
            simp only [List.drop_succ_cons, List.drop_zero] at hs hm ⊢
            refine ⟨(hs.trans hls).trans
              ((List.suffix_cons '/' u).trans (List.suffix_cons c _)), ?_⟩
            rw [hm, hlc, cnt_cons, cnt_cons]
            simp [h1]
          · rw [if_neg h3]
            by_cases h4 : (c = '/' && headIs '*' t) = true
            · rw [if_pos h4]
              simp only [Bool.and_eq_true, decide_eq_true_eq] at h4
              obtain ⟨u, hu⟩ := headIs_eq h4.2
              subst hu
              obtain ⟨hs, hm⟩ :=
                ih (skipBlock (('*' :: u).drop 1) line).1 (skipBlock (('*' :: u).drop 1) line).2
              obtain ⟨hbs, hbm⟩ := skipBlock_spec u line
              simp only [List.drop_succ_cons, List.drop_zero] at hs hm ⊢
              refine ⟨(hs.trans hbs).trans
                ((List.suffix_cons '*' u).trans (List.suffix_cons c _)), ?_⟩
              rw [hm, hbm, cnt_cons, cnt_cons]
              simp [h1]
            · rw [if_neg h4]
              exact ⟨List.suffix_rfl, rfl⟩

theorem skipSpaces_spec (l : List Char) (line : Nat) :
    (skipSpaces l line).1 <:+ l ∧
      (skipSpaces l line).2 + cnt (skipSpaces l line).1 = line + cnt l :=
  skipSpacesF_spec (l.length + 1) l line

theorem skipSpaces_mono (l : List Char) (line : Nat) :
    line ≤ (skipSpaces l line).2 := by
  obtain ⟨hs, hm⟩ := skipSpaces_spec l line
  have := cnt_suffix_le hs
  omega

theorem isDigit_ne_nl {c : Char} (h : c.isDigit = true) : c ≠ '\n' := by
  intro he; subst he; exact absurd h (by decide)

theorem hexVal_ne_nl {c : Char} {n : Nat} (h : hexVal c = some n) : c ≠ '\n' := by
  intro he
  subst he
  have hn : hexVal '\n' = none := by decide
  rw [hn] at h
  exact Option.noConfusion h

theorem pchar_spec {c : Char} {r : List Char} {line : Nat} {p : List Char × Nat}
    (h : pchar c r line = some p) (hc : c ≠ '\n') :
    p.1 <:+ r ∧ p.2 + cnt p.1 = line + cnt r ∧ line ≤ p.2 := by
  cases r with
  | nil => simp [pchar] at h
  | cons d t =>
    simp only [pchar] at h
    by_cases hd : d = c
    · rw [if_pos hd] at h
      obtain rfl := Option.some.injEq _ _ ▸ h.symm
      obtain ⟨hs, hm⟩ := skipSpaces_spec t line
      refine ⟨hs.trans (List.suffix_cons d t), ?_, skipSpaces_mono t line⟩
      rw [hm, cnt_cons, if_neg (hd ▸ hc)]
      omega
    · rw [if_neg hd] at h; exact absurd h (by simp)

theorem passChar_ok {c : Char} {r : List Char} {line : Nat} {p : List Char × Nat}
    (h : passChar c r line = .ok p) : pchar c r line = some p := by
  simp only [passChar] at h
  split at h
  · injection h with h; rw [← h]; assumption
  · exact absurd h (by simp)

theorem passChar_err {c : Char} {r : List Char} {line : Nat} {e : PErr}
    (h : passChar c r line = .error e) : e.line = line ∧ e.msg ≠ "" := by
  simp only [passChar] at h
  split at h
  · exact absurd h (by simp)
  · injection h with h
    subst h
    refine ⟨rfl, fun he => ?_⟩
    have := congrArg String.length he
    simp [String.length_append] at this

theorem matchKw_spec : ∀ (kw r rest : List Char), matchKw kw r = some rest →
    rest <:+ r ∧ cnt r = cnt kw + cnt rest := by
  intro kw
  induction kw with
  | nil =>
    intro r rest h
    simp only [matchKw, Option.some.injEq] at h
    subst h
    exact ⟨List.suffix_rfl, by rw [cnt_nil]; omega⟩
  | cons k kt ih =>
    intro r rest h
    cases r with
    | nil => simp [matchKw] at h
    | cons c rt =>
      simp only [matchKw] at h
      by_cases hc : c = k
      · rw [if_pos hc] at h
        obtain ⟨hs, hcnt⟩ := ih rt rest h
        refine ⟨hs.trans (List.suffix_cons c rt), ?_⟩
        rw [cnt_cons, cnt_cons, hcnt, hc]
        omega
      · rw [if_neg hc] at h; exact absurd h (by simp)

theorem pid_spec {kw r : List Char} {line : Nat} {p : List Char × Nat}
    (h : pid kw r line = some p) :
    p.1 <:+ r ∧ (cnt kw = 0 → p.2 + cnt p.1 = line + cnt r) ∧ line ≤ p.2 := by
  simp only [pid] at h
  split at h
  · exact absurd h (by simp)
  · rename_i rest hkw
    have hmk := matchKw_spec kw r rest hkw
    have key : p = skipSpaces rest line →
        p.1 <:+ r ∧ (cnt kw = 0 → p.2 + cnt p.1 = line + cnt r) ∧ line ≤ p.2 := by
      intro hp
      subst hp
      obtain ⟨hs, hm⟩ := skipSpaces_spec rest line
      refine ⟨hs.trans hmk.1, fun h0 => ?_, skipSpaces_mono rest line⟩
      rw [hm, hmk.2, h0]
      omega
    split at h
    · split at h
      · exact absurd h (by simp)
      · injection h with h; exact key h.symm
    · injection h with h; exact key h.symm

theorem takeDigits_spec (l : List Char) :
    (takeDigits l).2 <:+ l ∧ cnt (takeDigits l).2 = cnt l := by
  induction l with
  | nil => exact ⟨List.suffix_rfl, rfl⟩
  | cons c t ih =>
    simp only [takeDigits]
    by_cases h : c.isDigit = true
    · rw [if_pos h]
      refine ⟨ih.1.trans (List.suffix_cons c t), ?_⟩
      rw [ih.2, cnt_cons, if_neg (isDigit_ne_nl h)]
      omega
    · rw [if_neg h]
      exact ⟨List.suffix_rfl, rfl⟩

theorem headSign_ne_nl {r : List Char} {c : Char} {t : List Char}
    (hr : r = c :: t) (h : headSign r = true) : c ≠ '\n' := by
  subst hr
  simp only [headSign, Bool.or_eq_true, decide_eq_true_eq] at h
  rcases h with h | h <;> (subst h; decide)

theorem dropSign_spec (r : List Char) :
    dropSign r <:+ r ∧ cnt (dropSign r) = cnt r := by
  simp only [dropSign]
  by_cases h : headSign r = true
  · rw [if_pos h]
    cases r with
    | nil => simp [headSign] at h
    | cons c t =>
      refine ⟨List.drop_suffix 1 (c :: t), ?_⟩
      simp only [List.drop_succ_cons, List.drop_zero]
      rw [cnt_cons, if_neg (headSign_ne_nl rfl h)]
      omega
  · rw [if_neg h]
    exact ⟨List.suffix_rfl, rfl⟩

theorem readNumTok_spec {r lit rest : List Char}
    (h : readNumTok r = some (lit, rest)) : rest <:+ r ∧ cnt rest = cnt r := by
  obtain ⟨hds, hdc⟩ := dropSign_spec r
  obtain ⟨h1s, h1c⟩ := takeDigits_spec (dropSign r)
  simp only [readNumTok] at h
  have hfr :
      (if headIs '.' (takeDigits (dropSign r)).2 then
          ('.' :: (takeDigits ((takeDigits (dropSign r)).2.drop 1)).1,
            (takeDigits ((takeDigits (dropSign r)).2.drop 1)).2)
        else ([], (takeDigits (dropSign r)).2)).2 <:+ (takeDigits (dropSign r)).2 ∧
      cnt (if headIs '.' (takeDigits (dropSign r)).2 then
          ('.' :: (takeDigits ((takeDigits (dropSign r)).2.drop 1)).1,
            (takeDigits ((takeDigits (dropSign r)).2.drop 1)).2)
        else ([], (takeDigits (dropSign r)).2)).2 = cnt (takeDigits (dropSign r)).2 := by
    by_cases hdot : headIs '.' (takeDigits (dropSign r)).2 = true
    · rw [if_pos hdot]
      obtain ⟨u, hu⟩ := headIs_eq hdot
      obtain ⟨hts, htc⟩ := takeDigits_spec ((takeDigits (dropSign r)).2.drop 1)
      refine ⟨hts.trans (by rw [hu]; exact List.drop_suffix 1 _), ?_⟩
      rw [htc, hu]
      simp only [List.drop_succ_cons, List.drop_zero]
      rw [cnt_cons]
      simp
    · rw [if_neg hdot]
      exact ⟨List.suffix_rfl, rfl⟩
  set frv := (if headIs '.' (takeDigits (dropSign r)).2 then
      ('.' :: (takeDigits ((takeDigits (dropSign r)).2.drop 1)).1,
        (takeDigits ((takeDigits (dropSign r)).2.drop 1)).2)
    else ([], (takeDigits (dropSign r)).2)) with hfrv
  split at h
  · exact absurd h (by simp)
  · split at h
    · rename_i c t hct
      split at h
      · rename_i hee
        split at h
        · exact absurd h (by simp)
        · simp only [Option.some.injEq, Prod.mk.injEq] at h
          obtain ⟨-, rfl⟩ := h
          obtain ⟨hts, htc⟩ := takeDigits_spec (dropSign t)
          obtain ⟨hds2, hdc2⟩ := dropSign_spec t
          have hche : (c = '\n') = False := by
            simp only [Bool.or_eq_true, decide_eq_true_eq] at hee
            rcases hee with he | he <;> (subst he; simp)
          have hsuf : t <:+ frv.2 := by rw [hct]; exact List.suffix_cons c t
          have hcn : cnt t = cnt frv.2 := by
            rw [hct, cnt_cons]
            simp [hche]
          refine ⟨((hts.trans hds2).trans hsuf).trans (hfr.1.trans (h1s.trans hds)), ?_⟩
          rw [htc, hdc2, hcn, hfr.2, h1c, hdc]
      · simp only [Option.some.injEq, Prod.mk.injEq] at h
        obtain ⟨-, rfl⟩ := h
        rw [← hct]
        exact ⟨hfr.1.trans (h1s.trans hds), by rw [hfr.2, h1c, hdc]⟩
    · rename_i hct
      simp only [Option.some.injEq, Prod.mk.injEq] at h
      obtain ⟨-, rfl⟩ := h
      constructor
      · exact List.nil_suffix.trans (hfr.1.trans (h1s.trans hds))
      · have hc2 : cnt frv.2 = cnt r := by rw [hfr.2, h1c, hdc]
        rw [hct] at hc2
        exact hc2

theorem readStrBody_spec : ∀ (n : Nat) (l acc : List Char) (s : String) (rest : List Char),
    l.length ≤ n → readStrBody l acc = some (s, rest) → hasBslashNl l = false →
    rest <:+ l ∧ cnt rest = cnt l := by
  intro n
  induction n with
  | zero =>
    intro l acc s rest hlen h hb
    cases l with
    | nil => simp [readStrBody] at h
    | cons c t => simp at hlen
  | succ n ih =>
    intro l acc s rest hlen h hb
    cases l with
    | nil => simp [readStrBody] at h
    | cons c t =>
      rw [readStrBody.eq_def] at h
      dsimp only [] at h
      by_cases h1 : c = '"'
      · rw [if_pos h1] at h
        simp only [Option.some.injEq, Prod.mk.injEq] at h
        obtain ⟨-, rfl⟩ := h
        refine ⟨List.suffix_cons c t, ?_⟩
        rw [cnt_cons, if_neg (by subst h1; decide)]
        omega
      · rw [if_neg h1] at h
        by_cases h2 : c = '\\'
        · rw [if_pos h2] at h
          cases t with
          | nil => exact absurd h (by simp)
          | cons e u =>
            dsimp only [] at h
            have hcnl : cnt (c :: e :: u) = cnt (e :: u) := by
              rw [cnt_cons (c := c), if_neg (by subst h2; decide)]
              omega
            have henl : e ≠ '\n' := by
              intro he
              subst he h2
              simp [hasBslashNl, headIs] at hb
            by_cases h3 : e = 'u'
            · rw [if_pos h3] at h
              split at h
              · rename_i a b c2 d u2
                split at h
                · rename_i ha2 hb2 hc2 hd2 hha hhb hhc hhd
                  have hlen2 : u2.length ≤ n := by
                    simp at hlen
                    omega
                  have hsuf6 : u2 <:+ c :: e :: a :: b :: c2 :: d :: u2 := by
                    refine ((List.suffix_cons d u2).trans ?_)
                    refine ((List.suffix_cons c2 _).trans ?_)
                    refine ((List.suffix_cons b _).trans ?_)
                    refine ((List.suffix_cons a _).trans ?_)
                    exact (List.suffix_cons e _).trans (List.suffix_cons c _)
                  have hbn2 : hasBslashNl u2 = false := hasBslashNl_suffix hsuf6 hb
                  obtain ⟨hs, hc⟩ := ih u2 _ s rest hlen2 h hbn2
                  refine ⟨hs.trans hsuf6, ?_⟩
                  rw [hc, hcnl, cnt_cons (c := e), if_neg henl]
                  rw [cnt_cons, if_neg (hexVal_ne_nl hha)]
                  rw [cnt_cons, if_neg (hexVal_ne_nl hhb)]
                  rw [cnt_cons, if_neg (hexVal_ne_nl hhc)]
                  rw [cnt_cons, if_neg (hexVal_ne_nl hhd)]
                  omega
                · exact absurd h (by simp)
              · exact absurd h (by simp)
            · rw [if_neg h3] at h
              have hlen2 : u.length ≤ n := by simp at hlen; omega
              have hbn2 : hasBslashNl u = false := by
                refine hasBslashNl_suffix ?_ hb
                exact (List.suffix_cons e u).trans (List.suffix_cons c _)
              obtain ⟨hs, hc⟩ := ih u _ s rest hlen2 h hbn2
              constructor
              · exact hs.trans ((List.suffix_cons e u).trans (List.suffix_cons c _))
              · rw [hc, hcnl, cnt_cons (c := e), if_neg henl]
                omega
        · rw [if_neg h2] at h
          by_cases h4 : c = '\n'
          · rw [if_pos h4] at h; exact absurd h (by simp)
          · rw [if_neg h4] at h
            have hlen2 : t.length ≤ n := by simp at hlen; omega
            obtain ⟨hs, hc⟩ := ih t _ s rest hlen2 h (hasBslashNl_cons hb)
            exact ⟨hs.trans (List.suffix_cons c t),
              by rw [hc, cnt_cons, if_neg h4]; omega⟩

theorem readStringTok_spec {r : List Char} {s : String} {rest : List Char}
    (h : readStringTok r = some (s, rest)) (hb : hasBslashNl r = false) :
    (∃ u, r = '"' :: u) ∧ rest <:+ r ∧ cnt rest = cnt r := by
  simp only [readStringTok] at h
  split at h
  · rename_i hq
    obtain ⟨u, hu⟩ := headIs_eq hq
    subst hu
    simp only [List.drop_succ_cons, List.drop_zero] at h
    have hbu : hasBslashNl u = false := hasBslashNl_cons hb
    obtain ⟨hs, hc⟩ := readStrBody_spec u.length u [] s rest le_rfl h hbu
    refine ⟨⟨u, rfl⟩, hs.trans (List.suffix_cons _ u), ?_⟩
    rw [hc, cnt_cons]
    simp
  · exact absurd h (by simp)

theorem readStringE_ok {r : List Char} {line : Nat} {s : String} {rest : List Char}
    (h : readStringE r line = .ok (s, rest)) : readStringTok r = some (s, rest) := by
  simp only [readStringE] at h
  split at h
  · rename_i p hp
    injection h with h
    rw [hp, h]
  · exact absurd h (by simp)

theorem readStringE_err {r : List Char} {line : Nat} {e : PErr}
    (h : readStringE r line = .error e) : e.line = line ∧ e.msg ≠ "" := by
  simp only [readStringE] at h
  split at h
  · exact absurd h (by simp)
  · injection h with h
    subst h
    refine ⟨rfl, ?_⟩
    split <;> simp

/-- Parser state invariant relative to the original text s: the
remaining input is a suffix of s and the line counter equals one plus
the number of newlines already consumed. -/
def StOk (s r : List Char) (line : Nat) : Prop :=
  r <:+ s ∧ line + cnt r = 1 + cnt s

/-- Correctness of one recorded key relative to the original text s:
some suffix of s starts with the opening quote of a string token whose
decoded content is the key text, and the recorded line is the 1-based
line on which that opening quote sits (one plus the newlines of the
consumed part in front of it). -/
def GoodKey (s : List Char) (kl : String × Int) : Prop :=
  ∃ r₀ rest, r₀ <:+ s ∧ readStringTok r₀ = some (kl.1, rest) ∧
    kl.2 = Int.ofNat (1 + (cnt s - cnt r₀))

/-- Every key recorded anywhere inside a value is good. -/
def GoodVal (s : List Char) (v : Value) : Prop := ∀ kl ∈ keyLines v, GoodKey s kl

/-- Every key recorded in an accumulated member list is good. -/
def GoodPairs (s : List Char) (m : List (Key × Value)) : Prop :=
  ∀ kl ∈ keyLinesPairs m, GoodKey s kl

/-- Every key recorded in an accumulated element list is good. -/
def GoodArr (s : List Char) (a : List Value) : Prop :=
  ∀ kl ∈ keyLinesArr a, GoodKey s kl

/-- Precondition of one parser frame. -/
def callPre (s : List Char) : PCall → Prop
  | .val r line => StOk s r line
  | .objBody m r line => StOk s r line ∧ GoodPairs s m
  | .objTail m r line => StOk s r line ∧ GoodPairs s m
  | .arrBody a r line => StOk s r line ∧ GoodArr s a
  | .arrTail a r line => StOk s r line ∧ GoodArr s a

theorem keyLinesPairs_append (m : List (Key × Value)) (k : Key) (v : Value) :
    keyLinesPairs (m ++ [(k, v)]) =
      keyLinesPairs m ++ ((k.key, k.line) :: keyLines v) := by
  induction m with
  | nil => simp [keyLinesPairs]
  | cons p t ih =>
    obtain ⟨pk, pv⟩ := p
    simp only [List.cons_append, keyLinesPairs, List.append_eq, ih, List.append_assoc]

theorem keyLinesArr_append (a : List Value) (v : Value) :
    keyLinesArr (a ++ [v]) = keyLinesArr a ++ keyLines v := by
  induction a with
  | nil => simp [keyLinesArr, keyLines]
  | cons w t ih =>
    simp only [List.cons_append, keyLinesArr, List.append_eq, ih, List.append_assoc]

theorem parse_master : ∀ fuel (s : List Char) (c : PCall),
    hasBslashNl s = false → callPre s c →
    ∀ v r2 l2, parseF fuel c = .ok (v, r2, l2) →
      StOk s r2 l2 ∧ GoodVal s v := by
  intro fuel
  induction fuel with
  | zero =>
    intro s c hbn hpre v r2 l2 h
    exact absurd h (by simp [parseF])
  | succ fuel ih =>
    intro s c hbn hpre v r2 l2 h
    cases c with
    | val r line =>
      obtain ⟨hsuf, hmu⟩ := hpre
      have hcle := cnt_suffix_le hsuf
      simp only [parseF] at h
      split at h
      · -- number branch
        split at h
        · exact absurd h (by simp)
        · rename_i lit r1 hnum
          simp only [Except.ok.injEq, Prod.mk.injEq] at h
          obtain ⟨rfl, rfl, rfl⟩ := h
          obtain ⟨hns, hnc⟩ := readNumTok_spec hnum
          obtain ⟨hss, hsm⟩ := skipSpaces_spec r1 line
          refine ⟨⟨hss.trans (hns.trans hsuf), by rw [hsm, hnc]; omega⟩, ?_⟩
          intro kl hkl
          simp [keyLines] at hkl
      · split at h
        · -- string branch
          split at h
          · exact absurd h (by simp)
          · rename_i sv r1 hstr
            have htok := readStringE_ok hstr
            have hbr : hasBslashNl r = false := hasBslashNl_suffix hsuf hbn
            obtain ⟨-, hts, htc⟩ := readStringTok_spec htok hbr
            obtain ⟨hss, hsm⟩ := skipSpaces_spec r1 line
            have hst : StOk s (skipSpaces r1 line).1 (skipSpaces r1 line).2 :=
              ⟨hss.trans (hts.trans hsuf), by rw [hsm, htc]; omega⟩
            split at h
            · split at h
              · exact absurd h (by simp)
              · simp only [Except.ok.injEq, Prod.mk.injEq] at h
                obtain ⟨rfl, rfl, rfl⟩ := h
                exact ⟨hst, by intro kl hkl; simp [keyLines] at hkl⟩
              · simp only [Except.ok.injEq, Prod.mk.injEq] at h
                obtain ⟨rfl, rfl, rfl⟩ := h
                exact ⟨hst, by intro kl hkl; simp [keyLines] at hkl⟩
            · simp only [Except.ok.injEq, Prod.mk.injEq] at h
              obtain ⟨rfl, rfl, rfl⟩ := h
              exact ⟨hst, by intro kl hkl; simp [keyLines] at hkl⟩
        · split at h
          · -- null
            rename_i p hp
            simp only [Except.ok.injEq, Prod.mk.injEq] at h
            obtain ⟨rfl, rfl, rfl⟩ := h
            obtain ⟨hps, hpm, -⟩ := pid_spec hp
            refine ⟨⟨hps.trans hsuf, ?_⟩, by intro kl hkl; simp [keyLines] at hkl⟩
            rw [hpm (by decide)]; omega
          · split at h
            · -- true
              rename_i p hp
              simp only [Except.ok.injEq, Prod.mk.injEq] at h
              obtain ⟨rfl, rfl, rfl⟩ := h
              obtain ⟨hps, hpm, -⟩ := pid_spec hp
              refine ⟨⟨hps.trans hsuf, ?_⟩, by intro kl hkl; simp [keyLines] at hkl⟩
              rw [hpm (by decide)]; omega
            · split at h
              · -- false
                rename_i p hp
                simp only [Except.ok.injEq, Prod.mk.injEq] at h
                obtain ⟨rfl, rfl, rfl⟩ := h
                obtain ⟨hps, hpm, -⟩ := pid_spec hp
                refine ⟨⟨hps.trans hsuf, ?_⟩, by intro kl hkl; simp [keyLines] at hkl⟩
                rw [hpm (by decide)]; omega
              · split at h
                · -- object
                  rename_i p hp
                  obtain ⟨hps, hpm, -⟩ := pchar_spec hp (by decide)
                  refine ih s (.objBody [] p.1 p.2) hbn
                    ⟨⟨hps.trans hsuf, by rw [hpm]; omega⟩, ?_⟩ v r2 l2 h
                  intro kl hkl
                  simp [keyLinesPairs] at hkl
                · split at h
                  · -- array
                    rename_i p hp
                    obtain ⟨hps, hpm, -⟩ := pchar_spec hp (by decide)
                    refine ih s (.arrBody [] p.1 p.2) hbn
                      ⟨⟨hps.trans hsuf, by rw [hpm]; omega⟩, ?_⟩ v r2 l2 h
                    intro kl hkl
                    simp [keyLinesArr] at hkl
                  · exact absurd h (by simp)
    | objBody m r line =>
      obtain ⟨⟨hsuf, hmu⟩, hm⟩ := hpre
      have hcle := cnt_suffix_le hsuf
      simp only [parseF] at h
      split at h
      · rename_i p hp
        simp only [Except.ok.injEq, Prod.mk.injEq] at h
        obtain ⟨rfl, rfl, rfl⟩ := h
        obtain ⟨hps, hpm, -⟩ := pchar_spec hp (by decide)
        refine ⟨⟨hps.trans hsuf, by rw [hpm]; omega⟩, ?_⟩
        intro kl hkl
        simp only [keyLines] at hkl
        exact hm kl hkl
      · split at h
        · exact absurd h (by simp)
        · rename_i k r1 hstr
          have htok := readStringE_ok hstr
          have hbr : hasBslashNl r = false := hasBslashNl_suffix hsuf hbn
          obtain ⟨-, hts, htc⟩ := readStringTok_spec htok hbr
          have hgk : GoodKey s (k, Int.ofNat line) := by
            refine ⟨r, r1, hsuf, htok, ?_⟩
            have hl : line = 1 + (cnt s - cnt r) := by omega
            show Int.ofNat line = Int.ofNat (1 + (cnt s - cnt r))
            rw [hl]
          obtain ⟨hss, hsm⟩ := skipSpaces_spec r1 line
          have hst1 : StOk s (skipSpaces r1 line).1 (skipSpaces r1 line).2 :=
            ⟨hss.trans (hts.trans hsuf), by rw [hsm, htc]; omega⟩
          split at h
          · exact absurd h (by simp)
          · rename_i p2 hp2
            obtain ⟨hp2s, hp2m, -⟩ := pchar_spec (passChar_ok hp2) (by decide)
            have hst2 : StOk s p2.1 p2.2 :=
              ⟨hp2s.trans hst1.1, by rw [hp2m]; obtain ⟨-, hx⟩ := hst1; omega⟩
            split at h
            · exact absurd h (by simp)
            · rename_i v4 r4 l4 hval
              obtain ⟨hst4, hgv⟩ := ih s (.val p2.1 p2.2) hbn hst2 v4 r4 l4 hval
              refine ih s (.objTail (m ++ [(⟨k, Int.ofNat line⟩, v4)]) r4 l4) hbn
                ⟨hst4, ?_⟩ v r2 l2 h
              intro kl hkl
              rw [keyLinesPairs_append] at hkl
              rcases List.mem_append.1 hkl with hkl | hkl
              · exact hm kl hkl
              · rcases List.mem_cons.1 hkl with hkl | hkl
                · subst hkl; exact hgk
                · exact hgv kl hkl
    | objTail m r line =>
      obtain ⟨⟨hsuf, hmu⟩, hm⟩ := hpre
      have hcle := cnt_suffix_le hsuf
      simp only [parseF] at h
      split at h
      · rename_i p hp
        simp only [Except.ok.injEq, Prod.mk.injEq] at h
        obtain ⟨rfl, rfl, rfl⟩ := h
        obtain ⟨hps, hpm, -⟩ := pchar_spec hp (by decide)
        refine ⟨⟨hps.trans hsuf, by rw [hpm]; omega⟩, ?_⟩
        intro kl hkl
        simp only [keyLines] at hkl
        exact hm kl hkl
      · split at h
        · exact absurd h (by simp)
        · rename_i p hp
          obtain ⟨hps, hpm, -⟩ := pchar_spec (passChar_ok hp) (by decide)
          exact ih s (.objBody m p.1 p.2) hbn
            ⟨⟨hps.trans hsuf, by rw [hpm]; omega⟩, hm⟩ v r2 l2 h
    | arrBody a r line =>
      obtain ⟨⟨hsuf, hmu⟩, ha⟩ := hpre
      have hcle := cnt_suffix_le hsuf
      simp only [parseF] at h
      split at h
      · rename_i p hp
        simp only [Except.ok.injEq, Prod.mk.injEq] at h
        obtain ⟨rfl, rfl, rfl⟩ := h
        obtain ⟨hps, hpm, -⟩ := pchar_spec hp (by decide)
        refine ⟨⟨hps.trans hsuf, by rw [hpm]; omega⟩, ?_⟩
        intro kl hkl
        simp only [keyLines] at hkl
        exact ha kl hkl
      · split at h
        · exact absurd h (by simp)
        · rename_i v1 r1 l1 hval
          obtain ⟨hst1, hgv⟩ := ih s (.val r line) hbn ⟨hsuf, hmu⟩ v1 r1 l1 hval
          refine ih s (.arrTail (a ++ [v1]) r1 l1) hbn ⟨hst1, ?_⟩ v r2 l2 h
          intro kl hkl
          rw [keyLinesArr_append] at hkl
          rcases List.mem_append.1 hkl with hkl | hkl
          · exact ha kl hkl
          · exact hgv kl hkl
    | arrTail a r line =>
      obtain ⟨⟨hsuf, hmu⟩, ha⟩ := hpre
      have hcle := cnt_suffix_le hsuf
      simp only [parseF] at h
      split at h
      · rename_i p hp
        simp only [Except.ok.injEq, Prod.mk.injEq] at h
        obtain ⟨rfl, rfl, rfl⟩ := h
        obtain ⟨hps, hpm, -⟩ := pchar_spec hp (by decide)
        refine ⟨⟨hps.trans hsuf, by rw [hpm]; omega⟩, ?_⟩
        intro kl hkl
        simp only [keyLines] at hkl
        exact ha kl hkl
      · split at h
        · exact absurd h (by simp)
        · rename_i p hp
          obtain ⟨hps, hpm, -⟩ := pchar_spec (passChar_ok hp) (by decide)
          exact ih s (.arrBody a p.1 p.2) hbn
            ⟨⟨hps.trans hsuf, by rw [hpm]; omega⟩, ha⟩ v r2 l2 h

theorem mkPErr_msg_ne {m : String} {l : Nat} (h : m ≠ "") :
    (PErr.mk m l).msg ≠ "" := h

theorem readInt64E_err {r : List Char} {line : Nat} {e : PErr}
    (h : readInt64E r line = .error e) : e.line = line ∧ e.msg ≠ "" := by
  simp only [readInt64E] at h
  split at h
  · injection h with h; subst h; exact ⟨rfl, mkPErr_msg_ne (by decide)⟩
  · split at h
    · injection h with h; subst h; exact ⟨rfl, mkPErr_msg_ne (by decide)⟩
    · exact absurd h (by simp)

theorem dateCheck_err {sv : String} {e : PErr}
    (h : dateCheck sv = .error e) : 1 ≤ e.line ∧ e.msg ≠ "" := by
  simp only [dateCheck] at h
  split at h
  · exact absurd h (by simp)
  · rename_i p1 hp1
    split at h
    · exact absurd h (by simp)
    · rename_i p2 hp2
      split at h
      · exact absurd h (by simp)
      · rename_i p3 hp3
        split at h
        · split at h
          · rename_i e1 he1
            injection h with h
            subst h
            obtain ⟨hl, hm⟩ := readInt64E_err he1
            have m0 := skipSpaces_mono sv.toList 1
            have m1 := (pchar_spec hp1 (by decide)).2.2
            have m2 := (pid_spec hp2).2.2
            have m3 := (pchar_spec hp3 (by decide)).2.2
            exact ⟨by omega, hm⟩
          · split at h
            · exact absurd h (by simp)
            · exact absurd h (by simp)
        · exact absurd h (by simp)

theorem parse_err_master : ∀ fuel (c : PCall), 1 ≤ c.line →
    (∀ v r2 l2, parseF fuel c = .ok (v, r2, l2) → c.line ≤ l2) ∧
    (∀ e, parseF fuel c = .error e → 1 ≤ e.line ∧ e.msg ≠ "") := by
  intro fuel
  induction fuel with
  | zero =>
    intro c hc
    constructor
    · intro v r2 l2 h; exact absurd h (by simp [parseF])
    · intro e h
      simp only [parseF, Except.error.injEq] at h
      subst h
      exact ⟨hc, mkPErr_msg_ne (by decide)⟩
  | succ fuel ih =>
    intro c hc
    cases c with
    | val r line =>
      simp only [PCall.line] at hc ⊢
      constructor
      · intro v r2 l2 h
        simp only [parseF] at h
        split at h
        · split at h
          · exact absurd h (by simp)
          · rename_i lit r1 hnum
            simp only [Except.ok.injEq, Prod.mk.injEq] at h
            obtain ⟨-, -, rfl⟩ := h
            exact skipSpaces_mono r1 line
        · split at h
          · split at h
            · exact absurd h (by simp)
            · rename_i sv r1 hstr
              split at h
              · split at h
                · exact absurd h (by simp)
                · simp only [Except.ok.injEq, Prod.mk.injEq] at h
                  obtain ⟨-, -, rfl⟩ := h
                  exact skipSpaces_mono r1 line
                · simp only [Except.ok.injEq, Prod.mk.injEq] at h
                  obtain ⟨-, -, rfl⟩ := h
                  exact skipSpaces_mono r1 line
              · simp only [Except.ok.injEq, Prod.mk.injEq] at h
                obtain ⟨-, -, rfl⟩ := h
                exact skipSpaces_mono r1 line
          · split at h
            · rename_i p hp
              simp only [Except.ok.injEq, Prod.mk.injEq] at h
              obtain ⟨-, -, rfl⟩ := h
              exact (pid_spec hp).2.2
            · split at h
              · rename_i p hp
                simp only [Except.ok.injEq, Prod.mk.injEq] at h
                obtain ⟨-, -, rfl⟩ := h
                exact (pid_spec hp).2.2
              · split at h
                · rename_i p hp
                  simp only [Except.ok.injEq, Prod.mk.injEq] at h
                  obtain ⟨-, -, rfl⟩ := h
                  exact (pid_spec hp).2.2
                · split at h
                  · rename_i p hp
                    have hmono := (pchar_spec hp (by decide)).2.2
                    have := (ih (.objBody [] p.1 p.2) (by simp [PCall.line]; omega)).1 v r2 l2 h
                    simp only [PCall.line] at this
                    omega
                  · split at h
                    · rename_i p hp
                      have hmono := (pchar_spec hp (by decide)).2.2
                      have := (ih (.arrBody [] p.1 p.2) (by simp [PCall.line]; omega)).1 v r2 l2 h
                      simp only [PCall.line] at this
                      omega
                    · exact absurd h (by simp)
      · intro e h
        simp only [parseF] at h
        split at h
        · split at h
          · simp only [Except.error.injEq] at h
            subst h
            exact ⟨hc, mkPErr_msg_ne (by decide)⟩
          · exact absurd h (by simp)
        · split at h
          · split at h
            · rename_i e1 he1
              injection h with h
              subst h
              obtain ⟨hl, hm⟩ := readStringE_err he1
              exact ⟨by omega, hm⟩
            · rename_i sv r1 hstr
              split at h
              · split at h
                · rename_i e1 he1
                  injection h with h
                  subst h
                  exact dateCheck_err he1
                · exact absurd h (by simp)
                · exact absurd h (by simp)
              · exact absurd h (by simp)
          · split at h
            · exact absurd h (by simp)
            · split at h
              · exact absurd h (by simp)
              · split at h
                · exact absurd h (by simp)
                · split at h
                  · rename_i p hp
                    have hmono := (pchar_spec hp (by decide)).2.2
                    exact (ih (.objBody [] p.1 p.2) (by simp [PCall.line]; omega)).2 e h
                  · split at h
                    · rename_i p hp
                      have hmono := (pchar_spec hp (by decide)).2.2
                      exact (ih (.arrBody [] p.1 p.2) (by simp [PCall.line]; omega)).2 e h
                    · simp only [Except.error.injEq] at h
                      subst h
                      exact ⟨hc, mkPErr_msg_ne (by decide)⟩
    | objBody m r line =>
      simp only [PCall.line] at hc ⊢
      have key : ∀ R,
          (match pchar '\x7d' r line with
            | some p => Except.ok (Value.obj m, p.1, p.2)
            | none =>
              match readStringE r line with
              | .error e => .error e
              | .ok (k, r1) =>
                match passChar ':' (skipSpaces r1 line).1 (skipSpaces r1 line).2 with
                | .error e => .error e
                | .ok p2 =>
                  match parseF fuel (.val p2.1 p2.2) with
                  | .error e => .error e
                  | .ok (v, r4, l4) =>
                    parseF fuel (.objTail (m ++ [(⟨k, Int.ofNat line⟩, v)]) r4 l4)) = R →
          (∀ v r2 l2, R = Except.ok (v, r2, l2) → line ≤ l2) ∧
          (∀ e, R = Except.error e → 1 ≤ e.line ∧ e.msg ≠ "") := by
        intro R hR
        subst hR
        constructor
        · intro v r2 l2 h
          split at h
          · rename_i p hp
            simp only [Except.ok.injEq, Prod.mk.injEq] at h
            obtain ⟨-, -, rfl⟩ := h
            exact (pchar_spec hp (by decide)).2.2
          · split at h
            · exact absurd h (by simp)
            · rename_i k r1 hstr
              split at h
              · exact absurd h (by simp)
              · rename_i p2 hp2
                have m1 := skipSpaces_mono r1 line
                have m2 := (pchar_spec (passChar_ok hp2) (by decide)).2.2
                split at h
                · exact absurd h (by simp)
                · rename_i v4 r4 l4 hval
                  have m3 := (ih (.val p2.1 p2.2) (by simp [PCall.line]; omega)).1
                    v4 r4 l4 hval
                  simp only [PCall.line] at m3
                  have m4 := (ih (.objTail (m ++ [(⟨k, Int.ofNat line⟩, v4)]) r4 l4)
                    (by simp [PCall.line]; omega)).1 v r2 l2 h
                  simp only [PCall.line] at m4
                  omega
        · intro e h
          split at h
          · exact absurd h (by simp)
          · split at h
            · rename_i e1 he1
              injection h with h
              subst h
              obtain ⟨hl, hm⟩ := readStringE_err he1
              exact ⟨by omega, hm⟩
            · rename_i k r1 hstr
              split at h
              · rename_i e1 he1
                injection h with h
                subst h
                obtain ⟨hl, hm⟩ := passChar_err he1
                have m1 := skipSpaces_mono r1 line
                exact ⟨by omega, hm⟩
              · rename_i p2 hp2
                have m1 := skipSpaces_mono r1 line
                have m2 := (pchar_spec (passChar_ok hp2) (by decide)).2.2
                split at h
                · rename_i e1 he1
                  injection h with h
                  subst h
                  exact (ih (.val p2.1 p2.2) (by simp [PCall.line]; omega)).2 e1 he1
                · rename_i v4 r4 l4 hval
                  have m3 := (ih (.val p2.1 p2.2) (by simp [PCall.line]; omega)).1
                    v4 r4 l4 hval
                  simp only [PCall.line] at m3
                  exact (ih (.objTail (m ++ [(⟨k, Int.ofNat line⟩, v4)]) r4 l4)
                    (by simp [PCall.line]; omega)).2 e h
      have := key (parseF (fuel + 1) (.objBody m r line)) (by simp only [parseF])
      exact ⟨fun v r2 l2 h => this.1 v r2 l2 h, fun e h => this.2 e h⟩
    | objTail m r line =>
      simp only [PCall.line] at hc ⊢
      constructor
      · intro v r2 l2 h
        simp only [parseF] at h
        split at h
        · rename_i p hp
          simp only [Except.ok.injEq, Prod.mk.injEq] at h
          obtain ⟨-, -, rfl⟩ := h
          exact (pchar_spec hp (by decide)).2.2
        · split at h
          · exact absurd h (by simp)
          · rename_i p hp
            have m1 := (pchar_spec (passChar_ok hp) (by decide)).2.2
            have := (ih (.objBody m p.1 p.2) (by simp [PCall.line]; omega)).1 v r2 l2 h
            simp only [PCall.line] at this
            omega
      · intro e h
        simp only [parseF] at h
        split at h
        · exact absurd h (by simp)
        · split at h
          · rename_i e1 he1
            injection h with h
            subst h
            obtain ⟨hl, hm⟩ := passChar_err he1
            exact ⟨by omega, hm⟩
          · rename_i p hp
            have m1 := (pchar_spec (passChar_ok hp) (by decide)).2.2
            exact (ih (.objBody m p.1 p.2) (by simp [PCall.line]; omega)).2 e h
    | arrBody a r line =>
      simp only [PCall.line] at hc ⊢
      constructor
      · intro v r2 l2 h
        simp only [parseF] at h
        split at h
        · rename_i p hp
          simp only [Except.ok.injEq, Prod.mk.injEq] at h
          obtain ⟨-, -, rfl⟩ := h
          exact (pchar_spec hp (by decide)).2.2
        · split at h
          · exact absurd h (by simp)
          · rename_i v1 r1 l1 hval
            have m1 := (ih (.val r line) (by simp [PCall.line]; omega)).1 v1 r1 l1 hval
            simp only [PCall.line] at m1
            have m2 := (ih (.arrTail (a ++ [v1]) r1 l1)
              (by simp [PCall.line]; omega)).1 v r2 l2 h
            simp only [PCall.line] at m2
            omega
      · intro e h
        simp only [parseF] at h
        split at h
        · exact absurd h (by simp)
        · split at h
          · rename_i e1 he1
            injection h with h
            subst h
            exact (ih (.val r line) (by simp [PCall.line]; omega)).2 e1 he1
          · rename_i v1 r1 l1 hval
            have m1 := (ih (.val r line) (by simp [PCall.line]; omega)).1 v1 r1 l1 hval
            simp only [PCall.line] at m1
            exact (ih (.arrTail (a ++ [v1]) r1 l1)
              (by simp [PCall.line]; omega)).2 e h
    | arrTail a r line =>
      simp only [PCall.line] at hc ⊢
      constructor
      · intro v r2 l2 h
        simp only [parseF] at h
        split at h
        · rename_i p hp
          simp only [Except.ok.injEq, Prod.mk.injEq] at h
          obtain ⟨-, -, rfl⟩ := h
          exact (pchar_spec hp (by decide)).2.2
        · split at h
          · exact absurd h (by simp)
          · rename_i p hp
            have m1 := (pchar_spec (passChar_ok hp) (by decide)).2.2
            have := (ih (.arrBody a p.1 p.2) (by simp [PCall.line]; omega)).1 v r2 l2 h
            simp only [PCall.line] at this
            omega
      · intro e h
        simp only [parseF] at h
        split at h
        · exact absurd h (by simp)
        · split at h
          · rename_i e1 he1
            injection h with h
            subst h
            obtain ⟨hl, hm⟩ := passChar_err he1
            exact ⟨by omega, hm⟩
          · rename_i p hp
            have m1 := (pchar_spec (passChar_ok hp) (by decide)).2.2
            exact (ih (.arrBody a p.1 p.2) (by simp [PCall.line]; omega)).2 e h

theorem listLe_total : ∀ x y : List Char, listLe x y = true ∨ listLe y x = true := by
  intro x
  induction x with
  | nil => intro y; left; simp [listLe]
  | cons a xs ih =>
    intro y
    cases y with
    | nil => right; simp [listLe]
    | cons b ys =>
      simp only [listLe]
      by_cases h1 : a.toNat < b.toNat
      · left; rw [if_pos h1]
      · by_cases h2 : b.toNat < a.toNat
        · right; rw [if_pos h2]
        · rcases ih ys with h | h
          · left; rw [if_neg h1, if_neg h2]; exact h
          · right; rw [if_neg h2, if_neg h1]; exact h

theorem listLe_trans : ∀ x y z : List Char,
    listLe x y = true → listLe y z = true → listLe x z = true := by
  intro x
  induction x with
  | nil => intro y z h1 h2; simp [listLe]
  | cons a xs ih =>
    intro y z h1 h2
    cases y with
    | nil => simp [listLe] at h1
    | cons b ys =>
      cases z with
      | nil => simp [listLe] at h2
      | cons c zs =>
        simp only [listLe] at h1 h2 ⊢
        by_cases hab : a.toNat < b.toNat
        · by_cases hbc : b.toNat < c.toNat
          · rw [if_pos (by omega : a.toNat < c.toNat)]
          · rw [if_neg hbc] at h2
            by_cases hcb : c.toNat < b.toNat
            · rw [if_pos hcb] at h2; exact absurd h2 (by simp)
            · rw [if_pos (by omega : a.toNat < c.toNat)]
        · rw [if_neg hab] at h1
          by_cases hba : b.toNat < a.toNat
          · rw [if_pos hba] at h1; exact absurd h1 (by simp)
          · rw [if_neg hba] at h1
            by_cases hbc : b.toNat < c.toNat
            · rw [if_pos (by omega : a.toNat < c.toNat)]
            · rw [if_neg hbc] at h2
              by_cases hcb : c.toNat < b.toNat
              · rw [if_pos hcb] at h2; exact absurd h2 (by simp)
              · rw [if_neg hcb] at h2
                rw [if_neg (by omega : ¬a.toNat < c.toNat),
                  if_neg (by omega : ¬c.toNat < a.toNat)]
                exact ih ys zs h1 h2

theorem strLe_total (a b : String) : strLe a b = true ∨ strLe b a = true :=
  listLe_total a.toList b.toList

theorem strLe_trans {a b c : String} (h1 : strLe a b = true)
    (h2 : strLe b c = true) : strLe a c = true :=
  listLe_trans a.toList b.toList c.toList h1 h2

instance : IsTotal (String × String) (fun a b => strLe a.2 b.2 = true) :=
  ⟨fun a b => strLe_total a.2 b.2⟩

instance : IsTrans (String × String) (fun a b => strLe a.2 b.2 = true) :=
  ⟨fun _ _ _ h1 h2 => strLe_trans h1 h2⟩

theorem sortByValue_sorted (l : List (String × String)) :
    List.Sorted (fun a b => strLe a.2 b.2 = true) (sortByValue l) :=
  List.sorted_insertionSort _ l

theorem sortByValue_perm (l : List (String × String)) :
    List.Perm (sortByValue l) l :=
  List.perm_insertionSort _ l

theorem renderSection_isSome (st : HState) (fn al : String) :
    (renderSection st fn al).isSome = (st.bMap.lookup fn).isSome := by
  cases h : st.bMap.lookup fn <;> simp [renderSection, h]

theorem renderSections_some_iff (st : HState) : ∀ l : List (String × String),
    (renderSections st l).isSome = true ↔
      ∀ q ∈ l, (st.bMap.lookup q.1).isSome = true := by
  intro l
  induction l with
  | nil => simp [renderSections]
  | cons q t ih =>
    obtain ⟨fn, al⟩ := q
    simp only [renderSections]
    cases hrs : renderSection st fn al with
    | none =>
      have hns := renderSection_isSome st fn al
      rw [hrs] at hns
      simp only [Option.isSome_none] at hns
      constructor
      · intro hh; exact absurd hh (by simp)
      · intro hh
        have h2 : (st.bMap.lookup fn).isSome = true :=
          hh (fn, al) (List.mem_cons_self _ _)
        rw [h2] at hns
        exact absurd hns (by simp)
    | some sec =>
      have hsome := renderSection_isSome st fn al
      rw [hrs] at hsome
      simp only [Option.isSome_some] at hsome
      have hmap : (match renderSections st t with
          | none => none
          | some r => some (sec ++ r)) = (renderSections st t).map (fun r => sec ++ r) := by
        cases renderSections st t <;> rfl
      have him : (Option.map (fun r => sec ++ r) (renderSections st t)).isSome =
          (renderSections st t).isSome := by
        cases renderSections st t <;> rfl
      rw [hmap, him]
      constructor
      · intro hh q hq
        rcases List.mem_cons.1 hq with rfl | hq
        · exact hsome.symm
        · exact ih.1 hh q hq
      · intro hh
        exact ih.2 (fun q hq => hh q (List.mem_cons_of_mem _ hq))

theorem populate_isSome_iff (st : HState) :
    (populate st).isSome = true ↔
      (renderSections st (renderOrder st)).isSome = true := by
  simp only [populate]
  cases h : renderSections st (renderOrder st) <;> simp

theorem mem_renderOrder_of_fnMap {st : HState} {q : String × String}
    (hq : q ∈ st.fnMap) (hne : q.1 ≠ otherJson) : q ∈ renderOrder st := by
  refine List.mem_append_left _ ?_
  rw [List.mem_filter]
  exact ⟨(sortByValue_perm st.fnMap).mem_iff.2 hq, by simp [hne]⟩

theorem other_mem_renderOrder (st : HState) : (otherJson, "...") ∈ renderOrder st :=
  List.mem_append_right _ (List.mem_singleton.2 rfl)

theorem mem_renderOrder_cases {st : HState} {q : String × String}
    (hq : q ∈ renderOrder st) :
    (q ∈ st.fnMap ∧ q.1 ≠ otherJson) ∨ q = (otherJson, "...") := by
  rcases List.mem_append.1 hq with hq | hq
  · rw [List.mem_filter] at hq
    left
    exact ⟨(sortByValue_perm st.fnMap).mem_iff.1 hq.1, by simpa using hq.2⟩
  · right; simpa using hq

theorem lookup_mem {α : Type} {l : List (String × α)} {k : String} {v : α}
    (h : l.lookup k = some v) : (k, v) ∈ l := by
  induction l with
  | nil => simp [List.lookup] at h
  | cons p t ih =>
    obtain ⟨a, b⟩ := p
    simp only [List.lookup] at h
    split at h
    · rename_i hbeq
      injection h with h
      subst h
      have : k = a := by simpa using hbeq
      subst this
      exact List.mem_cons_self _ _
    · exact List.mem_cons_of_mem _ (ih h)

theorem renderSections_none_of_missing {st : HState} {l : List (String × String)}
    (q : String × String) (hq : q ∈ l) (hmiss : st.bMap.lookup q.1 = none) :
    renderSections st l = none := by
  cases hr : renderSections st l with
  | none => rfl
  | some r =>
    have := (renderSections_some_iff st l).1 (by rw [hr]; rfl) q hq
    rw [hmiss] at this
    exact absurd this (by simp)

theorem populate_none_of_missing {st : HState} {fn : String}
    (hfn : (st.fnMap.lookup fn).isSome = true)
    (hmiss : st.bMap.lookup fn = none) : populate st = none := by
  obtain ⟨al, hal⟩ := Option.isSome_iff_exists.1 hfn
  have hnone : renderSections st (renderOrder st) = none := by
    by_cases hne : fn = otherJson
    · subst hne
      exact renderSections_none_of_missing (otherJson, "...")
        (other_mem_renderOrder st) hmiss
    · exact renderSections_none_of_missing (fn, al)
        (mem_renderOrder_of_fnMap (lookup_mem hal) hne) hmiss
  simp [populate, hnone]

theorem valueIsScalar_props {v : Value} (h : valueIsScalar v = true) :
    valueIsError v = false ∧ valueGetCount v = 0 := by
  cases v <;> simp_all [valueIsScalar, valueIsError, valueGetCount]

theorem collectContent_empty {fn fin content : String} {st : HState}
    (h : valueIsError (jsonParse content) = false)
    (h0 : valueGetCount (jsonParse content) = 0) :
    collectContent fn fin content st =
      (false, { st with errs := st.errs ++ ["The JSON is empty. " ++ fin] }) := by
  simp only [collectContent, h, h0]
  simp

theorem renderSections_bMap_only {st st' : HState} (h : st.bMap = st'.bMap) :
    ∀ l, renderSections st l = renderSections st' l := by
  intro l
  induction l with
  | nil => rfl
  | cons q t ih =>
    obtain ⟨fn, al⟩ := q
    simp only [renderSections, renderSection, h, ih]

theorem populate_errs_invariant (st : HState) (e : List String) :
    populate { st with errs := e } = populate st := by
  have h1 : ({ st with errs := e } : HState).bMap = st.bMap := rfl
  have h2 : renderOrder { st with errs := e } = renderOrder st := rfl
  simp only [populate, h2, renderSections_bMap_only h1]

theorem headIs2_eq {c₁ c₂ : Char} {l : List Char} (h : headIs2 c₁ c₂ l = true) :
    ∃ u, l = c₁ :: c₂ :: u := by
  match l with
  | [] => simp [headIs2] at h
  | [a] => simp [headIs2] at h
  | a :: b :: u =>
    simp only [headIs2, Bool.and_eq_true, decide_eq_true_eq] at h
    exact ⟨u, by rw [h.1, h.2]⟩

theorem isDigit_bounds {c : Char} (h : c.isDigit = true) :
    48 ≤ c.toNat ∧ c.toNat ≤ 57 := by
  simp only [Char.isDigit, Bool.and_eq_true, decide_eq_true_eq] at h
  exact h

theorem isDigit_not_special {c : Char} (h : c.isDigit = true) :
    c ≠ '-' ∧ c ≠ '+' ∧ c ≠ '/' ∧ ¬c.toNat ≤ 32 := by
  obtain ⟨h1, h2⟩ := isDigit_bounds h
  exact ⟨fun he => by subst he; exact absurd h (by decide),
    fun he => by subst he; exact absurd h (by decide),
    fun he => by subst he; exact absurd h (by decide),
    by omega⟩

theorem skipSpaces_stay {c : Char} {t : List Char} (line : Nat)
    (h32 : ¬c.toNat ≤ 32)
    (hsl : (c = '/' && headIs '/' t) = false)
    (hbl : (c = '/' && headIs '*' t) = false) :
    skipSpaces (c :: t) line = (c :: t, line) := by
  show skipSpacesF ((c :: t).length + 1) (c :: t) line = (c :: t, line)
  rw [List.length_cons]
  simp only [skipSpacesF]
  rw [if_neg (fun he => h32 (by rw [he]; decide)), if_neg h32,
    if_neg (by simp [hsl]), if_neg (by simp [hbl])]

theorem takeDigits_all : ∀ (ds rest : List Char), (∀ c ∈ ds, c.isDigit = true) →
    headDigit rest = false → takeDigits (ds ++ rest) = (ds, rest) := by
  intro ds
  induction ds with
  | nil =>
    intro rest _ hrest
    cases rest with
    | nil => rfl
    | cons c t =>
      simp only [headDigit] at hrest
      simp only [List.nil_append, takeDigits]
      rw [if_neg (by simp [hrest])]
  | cons d ds ih =>
    intro rest hds hrest
    simp only [List.cons_append, takeDigits, List.append_eq]
    rw [if_pos (hds d (List.mem_cons_self _ _)),
      ih rest (fun c hc => hds c (List.mem_cons_of_mem _ hc)) hrest]

theorem readInt64E_digits_pos (d : Char) (ds : List Char) (line : Nat)
    (hd : ∀ c ∈ d :: ds, c.isDigit = true)
    (hlt : digitsToNat (d :: ds) < 2 ^ 63) :
    readInt64E (d :: (ds ++ [')', '/'])) line =
      .ok (Int.ofNat (digitsToNat (d :: ds)), [')', '/'], line) := by
  have hd0 := isDigit_not_special (hd d (List.mem_cons_self _ _))
  have htd : takeDigits (d :: (ds ++ [')', '/'])) = (d :: ds, [')', '/']) := by
    have := takeDigits_all (d :: ds) [')', '/'] hd (by decide)
    simpa using this
  have hm : headIs '-' (d :: (ds ++ [')', '/'])) = false := by
    simp [headIs, hd0.1]
  have hsg : headSign (d :: (ds ++ [')', '/'])) = false := by
    simp [headSign, hd0.1, hd0.2.1]
  simp only [readInt64E, hm, hsg, dropSign, Bool.false_eq_true, if_false, htd]
  rw [if_neg (by simp), if_neg (Nat.not_le.2 hlt),
    show skipSpaces [')', '/'] line = ([')', '/'], line) by rfl]
  simp

theorem readInt64E_digits_neg (d : Char) (ds : List Char) (line : Nat)
    (hd : ∀ c ∈ d :: ds, c.isDigit = true)
    (hlt : digitsToNat (d :: ds) < 2 ^ 63) :
    readInt64E ('-' :: d :: (ds ++ [')', '/'])) line =
      .ok (-Int.ofNat (digitsToNat (d :: ds)), [')', '/'], line) := by
  have htd : takeDigits (d :: (ds ++ [')', '/'])) = (d :: ds, [')', '/']) := by
    have := takeDigits_all (d :: ds) [')', '/'] hd (by decide)
    simpa using this
  have hm : headIs '-' ('-' :: d :: (ds ++ [')', '/'])) = true := rfl
  have hsg : headSign ('-' :: d :: (ds ++ [')', '/'])) = true := rfl
  simp only [readInt64E, hm, hsg, dropSign, if_true, List.drop_succ_cons,
    List.drop_zero, htd]
  rw [if_neg (by simp), if_neg (Nat.not_le.2 hlt),
    show skipSpaces [')', '/'] line = ([')', '/'], line) by rfl]
  simp

/-- Claim C1: for every valid JSON object text (formalised through the
consequence of validity that no backslash is immediately followed by a
raw newline), parsing and re-traversing the resulting value yields, for
every object key, a recorded line number equal to the 1-based line of
the original text on which the opening quote of that key sits; and the
synthetically constructed description lookup key carries no meaningful
line, since lookups ignore the line component entirely. -/
theorem c1_key_line_numbers :
    (∀ (s : String), hasBslashNl s.toList = false →
      ∀ v r2 l2, jsonParseE s = .ok (v, r2, l2) →
      ∀ kl ∈ keyLines v, GoodKey s.toList kl) ∧
    (∀ (m : List (Key × Value)) (l₁ l₂ : Int),
      vmFind m ⟨"description", l₁⟩ = vmFind m ⟨"description", l₂⟩) := by
  constructor
  · intro s hbn v r2 l2 h kl hkl
    simp only [jsonParseE] at h
    obtain ⟨hs, hm⟩ := skipSpaces_spec s.toList 1
    have := parse_master (2 * s.toList.length + 2) s.toList
      (.val (skipSpaces s.toList 1).1 (skipSpaces s.toList 1).2) hbn
      ⟨hs, by omega⟩ v r2 l2 h
    exact this.2 kl hkl
  · intro m l₁ l₂
    rfl

/-- Witness for claim C1 at a concrete two line object text: the key k
opens with a quote on line 2 and its recorded line is 2. -/
theorem c1_key_line_numbers_witness :
    GoodKey "\x7b\n \"k\" : 1\x7d".toList ("k", 2) :=
  c1_key_line_numbers.1 "\x7b\n \"k\" : 1\x7d" (by decide)
    (Value.obj [(⟨"k", 2⟩, Value.num "1")]) [] 2 rfl ("k", 2) (by decide)

/-- Claim C2: the top level parse entry point is a total function that
never propagates an exception; whenever the recursive parser throws, the
entry point returns an error tagged value carrying the thrown message (a
nonempty, human readable string) and the 1-based line number at the
point of failure; in particular the unterminated object text consisting
of one opening brace yields an error value at line 1, not a crash. -/
theorem c2_parse_never_throws :
    (∀ s : String,
      (∀ v r2 l2, jsonParseE s = .ok (v, r2, l2) → jsonParse s = v) ∧
      (∀ e, jsonParseE s = .error e →
        jsonParse s = .err e.msg e.line ∧ e.msg ≠ "" ∧ 1 ≤ e.line)) ∧
    jsonParse "\x7b" = .err "missing opening quote of string" 1 := by
  constructor
  · intro s
    constructor
    · intro v r2 l2 h
      simp [jsonParse, h]
    · intro e h
      refine ⟨by simp [jsonParse, h], ?_⟩
      simp only [jsonParseE] at h
      have hmono : 1 ≤ (PCall.val (skipSpaces s.toList 1).1
          (skipSpaces s.toList 1).2).line := by
        simp only [PCall.line]
        exact skipSpaces_mono s.toList 1
      have := (parse_err_master (2 * s.toList.length + 2)
        (.val (skipSpaces s.toList 1).1 (skipSpaces s.toList 1).2) hmono).2 e h
      exact ⟨this.2, this.1⟩
  · rfl

/-- Witness for claim C2 at the unterminated object text: the result is
the error value with a nonempty message and line 1. -/
theorem c2_parse_never_throws_witness :
    jsonParse "\x7b" = Value.err "missing opening quote of string" 1 ∧
      "missing opening quote of string" ≠ "" ∧ 1 ≤ 1 :=
  (c2_parse_never_throws.1 "\x7b").2 ⟨"missing opening quote of string", 1⟩ rfl

/-- Counterexample to claim C3: a string literal written without escape
characters whose content matches the legacy date pattern exactly is NOT
converted to a timestamp; the parser converts only when the raw literal
starts with a quote followed by a backslash (hddl.cpp line 40), so the
plain literal containing /Date(0)/ is returned verbatim and is not the
epoch timestamp the claim requires. -/
theorem c3_unescaped_date_verbatim :
    jsonParse "\"/Date(0)/\"" = Value.str "/Date(0)/" ∧
      jsonParse "\"/Date(0)/\"" ≠ Value.time 0 :=
  ⟨rfl, fun h => Value.noConfusion (show Value.str "/Date(0)/" = Value.time 0 from h)⟩

/-- Every positive canonical legacy date content is accepted by the
inner date recogniser with the value of its digit run: universal over
arbitrary digit strings, hence over every representable integer N. -/
theorem dateCheck_digits_pos (d : Char) (ds : List Char)
    (hd : ∀ c ∈ d :: ds, c.isDigit = true)
    (hlt : digitsToNat (d :: ds) < 2 ^ 63) :
    dateCheck (String.mk
        ('/' :: 'D' :: 'a' :: 't' :: 'e' :: '(' :: d :: (ds ++ [')', '/']))) =
      .ok (some (Int.ofNat (digitsToNat (d :: ds)))) := by
  have hd0 := isDigit_not_special (hd d (List.mem_cons_self _ _))
  have e3 : skipSpaces (d :: (ds ++ [')', '/'])) 1 = (d :: (ds ++ [')', '/']), 1) :=
    skipSpaces_stay 1 hd0.2.2.2 (by simp [hd0.2.2.1]) (by simp [hd0.2.2.1])
  have eint : isIntStart (d :: (ds ++ [')', '/'])) = true := by
    simp [isIntStart, dropSign, headSign, headDigit, hd0.1, hd0.2.1,
      hd d (List.mem_cons_self _ _)]
  have eread := readInt64E_digits_pos d ds 1 hd hlt
  have hneq : ¬(Int.ofNat (digitsToNat (d :: ds)) = -(2 ^ 63)) := by
    intro he
    have h0 : (0 : Int) ≤ Int.ofNat (digitsToNat (d :: ds)) := Int.ofNat_nonneg _
    rw [he] at h0
    have h1 : (0 : Int) < 2 ^ 63 := by positivity
    linarith
  simp only [dateCheck,
    show skipSpaces (String.mk ('/' :: 'D' :: 'a' :: 't' :: 'e' :: '(' :: d ::
        (ds ++ [')', '/']))).toList 1 =
      (('/' :: 'D' :: 'a' :: 't' :: 'e' :: '(' :: d :: (ds ++ [')', '/'])), 1) by rfl,
    show pchar '/' ('/' :: 'D' :: 'a' :: 't' :: 'e' :: '(' :: d ::
        (ds ++ [')', '/'])) 1 =
      some (('D' :: 'a' :: 't' :: 'e' :: '(' :: d :: (ds ++ [')', '/'])), 1) by rfl,
    show pid "Date".toList ('D' :: 'a' :: 't' :: 'e' :: '(' :: d ::
        (ds ++ [')', '/'])) 1 =
      some (('(' :: d :: (ds ++ [')', '/'])), 1) by rfl,
    show pchar '(' ('(' :: d :: (ds ++ [')', '/'])) 1 =
      some (skipSpaces (d :: (ds ++ [')', '/'])) 1) by rfl,
    e3, eint, eread]
  simp [hneq]

/-- Every negative canonical legacy date content is likewise accepted
with the negated value of its digit run. -/
theorem dateCheck_digits_neg (d : Char) (ds : List Char)
    (hd : ∀ c ∈ d :: ds, c.isDigit = true)
    (hlt : digitsToNat (d :: ds) < 2 ^ 63) :
    dateCheck (String.mk
        ('/' :: 'D' :: 'a' :: 't' :: 'e' :: '(' :: '-' :: d :: (ds ++ [')', '/']))) =
      .ok (some (-Int.ofNat (digitsToNat (d :: ds)))) := by
  have eint : isIntStart ('-' :: d :: (ds ++ [')', '/'])) = true := by
    simp [isIntStart, dropSign, headSign, headDigit, hd d (List.mem_cons_self _ _)]
  have eread := readInt64E_digits_neg d ds 1 hd hlt
  have hneq : ¬(-Int.ofNat (digitsToNat (d :: ds)) = -(2 ^ 63)) := by
    intro he
    have h2 := neg_inj.mp he
    have h3 := Int.ofNat_lt.mpr hlt
    norm_num at h2 h3
    omega
  simp only [dateCheck,
    show skipSpaces (String.mk ('/' :: 'D' :: 'a' :: 't' :: 'e' :: '(' :: '-' :: d ::
        (ds ++ [')', '/']))).toList 1 =
      (('/' :: 'D' :: 'a' :: 't' :: 'e' :: '(' :: '-' :: d :: (ds ++ [')', '/'])), 1)
      by rfl,
    show pchar '/' ('/' :: 'D' :: 'a' :: 't' :: 'e' :: '(' :: '-' :: d ::
        (ds ++ [')', '/'])) 1 =
      some (('D' :: 'a' :: 't' :: 'e' :: '(' :: '-' :: d :: (ds ++ [')', '/'])), 1)
      by rfl,
    show pid "Date".toList ('D' :: 'a' :: 't' :: 'e' :: '(' :: '-' :: d ::
        (ds ++ [')', '/'])) 1 =
      some (('(' :: '-' :: d :: (ds ++ [')', '/'])), 1) by rfl,
    show pchar '(' ('(' :: '-' :: d :: (ds ++ [')', '/'])) 1 =
      some (('-' :: d :: (ds ++ [')', '/'])), 1) by rfl,
    eint, eread]
  have hlt2 : digitsToNat (d :: ds) < 9223372036854775808 := by
    have h9 : (2 : Nat) ^ 63 = 9223372036854775808 := by norm_num
    rw [h9] at hlt
    exact hlt
  simp [hneq]
  all_goals omega

/-- Claim C3 as amended, universal over the string branch of the
parser: only a string literal whose raw text begins with a quote
followed by a backslash is checked against the legacy date pattern at
all; every such literal whose decoded content the inner recogniser
accepts with integer value N is converted to the timestamp 1970-01-01
plus N divided by 1000 seconds, and the recogniser accepts the
canonical content built from any digit run, with either sign, hence
every representable integer N; every gated literal whose content does
not match, and every literal without the leading escape (a plain
unescaped date pattern included), parses to its decoded content
verbatim.  The two concrete instances of the specification are kept. -/
theorem c3_escaped_date_conversion :
    (∀ (fuel : Nat) (r : List Char) (line : Nat) (sv : String) (r1 : List Char),
      isQuote r = true → headIs2 '"' '\\' r = false →
      readStringE r line = .ok (sv, r1) →
      parseF (fuel + 1) (.val r line) =
        .ok (.str sv, (skipSpaces r1 line).1, (skipSpaces r1 line).2)) ∧
    (∀ (fuel : Nat) (r : List Char) (line : Nat) (sv : String) (r1 : List Char)
      (n : Int),
      headIs2 '"' '\\' r = true →
      readStringE r line = .ok (sv, r1) →
      dateCheck sv = .ok (some n) →
      parseF (fuel + 1) (.val r line) =
        .ok (.time (Int.tdiv n 1000), (skipSpaces r1 line).1, (skipSpaces r1 line).2)) ∧
    (∀ (fuel : Nat) (r : List Char) (line : Nat) (sv : String) (r1 : List Char),
      headIs2 '"' '\\' r = true →
      readStringE r line = .ok (sv, r1) →
      dateCheck sv = .ok none →
      parseF (fuel + 1) (.val r line) =
        .ok (.str sv, (skipSpaces r1 line).1, (skipSpaces r1 line).2)) ∧
    (∀ (d : Char) (ds : List Char), (∀ c ∈ d :: ds, c.isDigit = true) →
      digitsToNat (d :: ds) < 2 ^ 63 →
      dateCheck (String.mk
          ('/' :: 'D' :: 'a' :: 't' :: 'e' :: '(' :: d :: (ds ++ [')', '/']))) =
        .ok (some (Int.ofNat (digitsToNat (d :: ds)))) ∧
      dateCheck (String.mk
          ('/' :: 'D' :: 'a' :: 't' :: 'e' :: '(' :: '-' :: d :: (ds ++ [')', '/']))) =
        .ok (some (-Int.ofNat (digitsToNat (d :: ds))))) ∧
    jsonParse "\"\\/Date(0)\\/\"" = Value.time 0 ∧
    jsonParse "\"\\/Date(86400000)\\/\"" = Value.time 86400 ∧
    jsonParse "\"/Date(0)/\"" = Value.str "/Date(0)/" := by
  refine ⟨?_, ?_, ?_, ?_, rfl, rfl, rfl⟩
  · intro fuel r line sv r1 hq hng hok
    have hq2 : headIs '"' r = true := hq
    obtain ⟨t, rfl⟩ := headIs_eq hq2
    have hnum : isNumStart ('"' :: t) = false := rfl
    simp only [parseF]
    rw [if_neg (show ¬isNumStart ('"' :: t) = true by simp [hnum]),
      if_pos (show isQuote ('"' :: t) = true by rfl)]
    simp only [hok]
    rw [if_neg (show ¬headIs2 '"' '\\' ('"' :: t) = true by simp [hng])]
  · intro fuel r line sv r1 n hgate hok hdc
    obtain ⟨u, rfl⟩ := headIs2_eq hgate
    have hnum : isNumStart ('"' :: '\\' :: u) = false := rfl
    simp only [parseF]
    rw [if_neg (show ¬isNumStart ('"' :: '\\' :: u) = true by simp [hnum]),
      if_pos (show isQuote ('"' :: '\\' :: u) = true by rfl)]
    simp only [hok]
    rw [if_pos (show headIs2 '"' '\\' ('"' :: '\\' :: u) = true by rfl)]
    simp only [hdc]
  · intro fuel r line sv r1 hgate hok hdc
    obtain ⟨u, rfl⟩ := headIs2_eq hgate
    have hnum : isNumStart ('"' :: '\\' :: u) = false := rfl
    simp only [parseF]
    rw [if_neg (show ¬isNumStart ('"' :: '\\' :: u) = true by simp [hnum]),
      if_pos (show isQuote ('"' :: '\\' :: u) = true by rfl)]
    simp only [hok]
    rw [if_pos (show headIs2 '"' '\\' ('"' :: '\\' :: u) = true by rfl)]
    simp only [hdc]
  · intro d ds hd hlt
    exact ⟨dateCheck_digits_pos d ds hd hlt, dateCheck_digits_neg d ds hd hlt⟩

/-- Witness for claim C3 as amended: the escaped literal containing
/Date(42)/ satisfies the gate, its content is accepted with value 42,
and parsing converts it to 42 divided by 1000 seconds after the epoch;
the canonical digit run 42 is accepted by the recogniser. -/
theorem c3_escaped_date_conversion_witness :
    (headIs2 '"' '\\' "\"\\/Date(42)\\/\"".toList = true ∧
      readStringE "\"\\/Date(42)\\/\"".toList 1 = .ok ("/Date(42)/", []) ∧
      dateCheck "/Date(42)/" = .ok (some 42) ∧
      parseF (30 + 1) (.val "\"\\/Date(42)\\/\"".toList 1) =
        .ok (.time (Int.tdiv 42 1000), (skipSpaces [] 1).1, (skipSpaces [] 1).2)) ∧
    dateCheck (String.mk
        ('/' :: 'D' :: 'a' :: 't' :: 'e' :: '(' :: '4' :: (['2'] ++ [')', '/']))) =
      .ok (some (Int.ofNat (digitsToNat ('4' :: ['2'])))) :=
  ⟨⟨rfl, rfl, rfl,
    c3_escaped_date_conversion.2.1 30 "\"\\/Date(42)\\/\"".toList 1
      "/Date(42)/" [] 42 rfl rfl rfl⟩,
   (c3_escaped_date_conversion.2.2.2.1 '4' ['2'] (by decide) (by decide)).1⟩

/-- Directory listing used by the counterexample to claim C4: the first
file fails to open, the second is well formed. -/
def c4files : List (String × Option String) :=
  [("d/a.json", none),
   ("d/b.json", some "\x7b\"x\":[\x7b\"description\":\"D1\"\x7d]\x7d")]

/-- Counterexample to claim C4: in directory mode the failure of the
first file (an open failure) aborts the whole collection at once; the
well formed second file is never collected, even though collecting it
alone would succeed.  This contradicts the claim that collection
continues with the remaining files of the directory. -/
theorem c4_abort_on_first_failure :
    (collectDir c4files initState).1 = false ∧
    (collectDir c4files initState).2.bMap.lookup "b.json" = none ∧
    (collectDir c4files initState).2.errs = ["Couldn't open file d/a.json"] ∧
    (collectDir [("d/b.json", some "\x7b\"x\":[\x7b\"description\":\"D1\"\x7d]\x7d")]
      initState).2.bMap.lookup "b.json" = some [⟨"D1", 1⟩] :=
  ⟨rfl, rfl, rfl, rfl⟩

/-- Claim C4 as amended: when a single file fails to open or fails to
collect, the failure is reported and directory collection aborts
immediately with failure; the remaining files of the directory are not
processed (the result does not depend on them at all). -/
theorem c4_amended :
    (∀ (fin : String) (rest rest2 : List (String × Option String)) (st : HState),
      collectDir ((fin, none) :: rest) st =
        (false, { st with errs := st.errs ++ ["Couldn't open file " ++ fin] }) ∧
      collectDir ((fin, none) :: rest) st = collectDir ((fin, none) :: rest2) st) ∧
    (∀ (fin content : String) (rest : List (String × Option String)) (st : HState),
      (collectContent (getFileName fin) fin content st).1 = false →
      collectDir ((fin, some content) :: rest) st =
        (false, (collectContent (getFileName fin) fin content st).2)) := by
  constructor
  · intro fin rest rest2 st
    exact ⟨rfl, rfl⟩
  · intro fin content rest st h
    simp [collectDir, h]

/-- Witness for claim C4 as amended: a file whose content is a lone
opening brace fails to collect and collection aborts with its state. -/
theorem c4_amended_witness :
    (collectContent (getFileName "d/x.json") "d/x.json" "\x7b" initState).1 = false ∧
    collectDir [("d/x.json", some "\x7b")] initState =
      (false, (collectContent (getFileName "d/x.json") "d/x.json" "\x7b" initState).2) :=
  ⟨rfl, c4_amended.2 "d/x.json" "\x7b" [] initState rfl⟩

/-- State used by claim C5: only lumi.json and the fallback file were
collected, while the seeded alias table still lists many other files. -/
def c5state : HState :=
  { initState with bMap := [("lumi.json", [⟨"D", 2⟩]), ("other.json", [])] }

/-- Counterexample to claim C5: hue.json is present in the alias table
and has no catalogue entry list, yet the renderer does not simply skip
its section and emit the rest of the document: the per file helper
indexes the catalogue with the unchecked Find result, an out of bounds
access (modelled as none), so no document is produced at all. -/
theorem c5_missing_alias_not_skipped :
    (c5state.fnMap.lookup "hue.json").isSome = true ∧
    c5state.bMap.lookup "hue.json" = none ∧
    populate c5state = none :=
  ⟨rfl, rfl, rfl⟩

/-- Claim C5 as amended: a fileName present in the alias table with no
catalogue entry list is not skipped; the renderer still reaches its
section and then performs an out of bounds catalogue access (modelled
as a failed rendering), so the presence of any uncollected alias table
entry makes the whole rendering fail instead of producing a document
without that section. -/
theorem c5_amended : ∀ (st : HState) (fn : String),
    (st.fnMap.lookup fn).isSome = true → st.bMap.lookup fn = none →
    populate st = none :=
  fun _ _ h1 h2 => populate_none_of_missing h1 h2

/-- Witness for claim C5 as amended at the concrete state: gs.json is
aliased but uncollected, and rendering fails. -/
theorem c5_amended_witness :
    (c5state.fnMap.lookup "gs.json").isSome = true ∧
    c5state.bMap.lookup "gs.json" = none ∧
    populate c5state = none :=
  ⟨rfl, rfl, c5_amended c5state "gs.json" rfl rfl⟩

/-- Coverage precondition of the renderer: every non fallback alias
table file and the fallback file have catalogue entry lists. -/
def coverage (st : HState) : Prop :=
  (∀ q ∈ st.fnMap, q.1 ≠ otherJson → (st.bMap.lookup q.1).isSome = true) ∧
    (st.bMap.lookup otherJson).isSome = true

instance (st : HState) : Decidable (coverage st) := by
  unfold coverage
  infer_instance

/-- Claim C6: whenever rendering succeeds, the per file sections appear
in ascending display name order (locale independent codepoint order)
except the fallback file other.json, which is always rendered last
regardless of where its display name (three dots, which would sort
first) would sort: the render order drops to a sorted list once the
final fallback entry is removed, and the final entry is always the
fallback file. -/
theorem c6_sections_sorted_fallback_last : ∀ st : HState, coverage st →
    (∃ doc, populate st = some doc) ∧
    List.Sorted (fun a b : String × String => strLe a.2 b.2 = true)
      ((renderOrder st).dropLast) ∧
    (renderOrder st).getLast? = some (otherJson, "...") := by
  intro st hcov
  refine ⟨?_, ?_, ?_⟩
  · have hsome : (populate st).isSome = true := by
      rw [populate_isSome_iff, renderSections_some_iff]
      intro q hq
      rcases mem_renderOrder_cases hq with ⟨hin, hne⟩ | rfl
      · exact hcov.1 q hin hne
      · exact hcov.2
    exact Option.isSome_iff_exists.1 hsome
  · have hdl : (renderOrder st).dropLast =
        (sortByValue st.fnMap).filter (fun p => p.1 ≠ otherJson) := by
      simp only [renderOrder]
      exact List.dropLast_concat
    rw [hdl]
    exact (sortByValue_sorted st.fnMap).sublist (List.filter_sublist _)
  · simp only [renderOrder]
    exact List.getLast?_concat _

/-- State used by the witness for claim C6. -/
def c6state : HState :=
  ⟨[("b.json", "B"), ("a.json", "A"), ("other.json", "...")],
   [("a.json", []), ("b.json", []), ("other.json", [])], []⟩

/-- Witness for claim C6 at a covered concrete state. -/
theorem c6_sections_sorted_fallback_last_witness :
    coverage c6state ∧
    ((∃ doc, populate c6state = some doc) ∧
      List.Sorted (fun a b : String × String => strLe a.2 b.2 = true)
        ((renderOrder c6state).dropLast) ∧
      (renderOrder c6state).getLast? = some (otherJson, "...")) :=
  ⟨by decide, c6_sections_sorted_fallback_last c6state (by decide)⟩

/-- Claim C7: a trailing comma before the closing delimiter of an object
or array is tolerated and does not change the parse result: the two
concrete texts of the specification parse to equal structures, and in
general the post member separator handling of the parser treats a comma
immediately followed by the closing delimiter exactly like the closing
delimiter alone, for objects and for arrays. -/
theorem c7_trailing_comma :
    jsonParse "\x7b\"a\":1,\x7d" = jsonParse "\x7b\"a\":1\x7d" ∧
    jsonParse "[1,]" = jsonParse "[1]" ∧
    (∀ (fuel : Nat) (m : List (Key × Value)) (u : List Char) (line : Nat),
      parseF (fuel + 2) (.objTail m (',' :: '\x7d' :: u) line) =
        parseF (fuel + 2) (.objTail m ('\x7d' :: u) line)) ∧
    (∀ (fuel : Nat) (a : List Value) (u : List Char) (line : Nat),
      parseF (fuel + 2) (.arrTail a (',' :: ']' :: u) line) =
        parseF (fuel + 2) (.arrTail a (']' :: u) line)) :=
  ⟨rfl, rfl, fun _ _ _ _ => rfl, fun _ _ _ _ => rfl⟩

/-- Claim C8: a file whose content parses successfully to an empty
container (an empty object or an empty array) is reported with the
empty document diagnostic naming the source, collection of it returns
failure, and the state is unchanged apart from the diagnostic, so the
file contributes no section to the rendered output. -/
theorem c8_empty_container_rejected : ∀ (st : HState) (fn fin content : String),
    (jsonParse content = Value.obj [] ∨ jsonParse content = Value.arr []) →
    collectContent fn fin content st =
      (false, { st with errs := st.errs ++ ["The JSON is empty. " ++ fin] }) ∧
    (collectContent fn fin content st).2.bMap = st.bMap ∧
    populate (collectContent fn fin content st).2 = populate st := by
  intro st fn fin content h
  have hmain : collectContent fn fin content st =
      (false, { st with errs := st.errs ++ ["The JSON is empty. " ++ fin] }) := by
    rcases h with h | h <;>
      exact collectContent_empty (by rw [h]; rfl) (by rw [h]; rfl)
  refine ⟨hmain, ?_, ?_⟩
  · rw [hmain]
  · rw [hmain]
    exact populate_errs_invariant st _

/-- Witness for claim C8 at the empty object text. -/
theorem c8_empty_container_rejected_witness :
    (jsonParse "\x7b\x7d" = Value.obj [] ∨ jsonParse "\x7b\x7d" = Value.arr []) ∧
    (collectContent "x.json" "x.json" "\x7b\x7d" initState =
      (false, { initState with
        errs := initState.errs ++ ["The JSON is empty. x.json"] }) ∧
    (collectContent "x.json" "x.json" "\x7b\x7d" initState).2.bMap = initState.bMap ∧
    populate (collectContent "x.json" "x.json" "\x7b\x7d" initState).2 =
      populate initState) :=
  ⟨Or.inl rfl,
    c8_empty_container_rejected initState "x.json" "x.json" "\x7b\x7d" (Or.inl rfl)⟩

/-- Claim C9: the per file rendering helper indexes the catalogue with
the unchecked Find result, so its out of bounds access (modelled as a
none result) is unreachable exactly when every rendered fileName,
including the unconditionally rendered fallback file other.json, is
present in the catalogue. -/
theorem c9_render_oob_precondition : ∀ st : HState,
    (populate st).isSome = true ↔
      ((∀ q ∈ st.fnMap, q.1 ≠ otherJson → (st.bMap.lookup q.1).isSome = true) ∧
        (st.bMap.lookup otherJson).isSome = true) := by
  intro st
  rw [populate_isSome_iff, renderSections_some_iff]
  constructor
  · intro H
    constructor
    · intro q hq hne
      exact H q (mem_renderOrder_of_fnMap hq hne)
    · exact H (otherJson, "...") (other_mem_renderOrder st)
  · intro H q hq
    rcases mem_renderOrder_cases hq with ⟨hin, hne⟩ | rfl
    · exact H.1 q hin hne
    · exact H.2

/-- Claim C10: a file whose content parses successfully to a scalar
value (number, string, boolean or null) takes the empty document branch
of the collector, reporting the empty JSON diagnostic and returning
failure, because the element count of a scalar value is zero; the
silent not an object branch is never reached for scalars. -/
theorem c10_scalar_empty_branch : ∀ (st : HState) (fn fin content : String),
    valueIsScalar (jsonParse content) = true →
    collectContent fn fin content st =
      (false, { st with errs := st.errs ++ ["The JSON is empty. " ++ fin] }) := by
  intro st fn fin content h
  obtain ⟨he, hc⟩ := valueIsScalar_props h
  exact collectContent_empty he hc

/-- Witness for claim C10 at a scalar number text. -/
theorem c10_scalar_empty_branch_witness :
    valueIsScalar (jsonParse "42") = true ∧
    collectContent "x.json" "x.json" "42" initState =
      (false, { initState with
        errs := initState.errs ++ ["The JSON is empty. x.json"] }) :=
  ⟨rfl, c10_scalar_empty_branch initState "x.json" "x.json" "42" rfl⟩

end Hddl
